import Mathlib

/-!
Shallow embedding of the roulette game server (`server.js`, first variant in
the repository): the authoritative in-memory game-state engine.  JS numbers
are modelled as `ℚ`, JS strings as `String`, JS objects used as string-keyed
maps as insertion-ordered association lists (`List (String × _)`) with
update-in-place assignment (`jsObjSet`) and deletion (`jsObjDel`), matching
the enumeration order of non-integer-like keys in JS objects.
-/

namespace Roulette

/-- A JS value that can be stored as a bet by the `select` handler: a number,
a string, `null`, `undefined`, or any other (non-primitive) value. -/
inductive BetVal where
  | num (q : ℚ)
  | str (s : String)
  | nullv
  | undef
  | other
deriving DecidableEq, Repr

/-- Numeric value of the digit list, most significant first. -/
def natOfDigits (cs : List Char) : ℕ :=
  cs.foldl (fun a c => 10 * a + (c.toNat - 48)) 0

/-- The whitespace characters trimmed by the JS string functions used here. -/
def isJsSpace (c : Char) : Bool := c = ' ' || c = '\t' || c = '\n' || c = '\r'

/-- JS `s.trim()` (structurally, on the character list). -/
def jsTrim (s : String) : String :=
  ⟨((s.data.dropWhile isJsSpace).reverse.dropWhile isJsSpace).reverse⟩

/-- ASCII lower-casing of one character. -/
def jsLowerChar (c : Char) : Char :=
  if 'A' ≤ c ∧ c ≤ 'Z' then Char.ofNat (c.toNat + 32) else c

/-- JS `s.toLowerCase()` (on ASCII data, the only case exercised here). -/
def jsLower (s : String) : String := ⟨s.data.map jsLowerChar⟩

/-- Parse an unsigned decimal literal (`"12"`, `"3.5"`, `".5"`, `"5."`);
`none` models NaN.  This models the fragment of the JS `Number(string)`
grammar exercised by the server (plain decimal literals; exotic forms such
as hex or exponents are outside the inputs considered here). -/
def jsNumberCore (cs : List Char) : Option ℚ :=
  let ip := cs.takeWhile Char.isDigit
  let rest := cs.dropWhile Char.isDigit
  match rest with
  | [] => if ip.isEmpty then none else some (natOfDigits ip)
  | '.' :: fp =>
      if fp.all Char.isDigit ∧ (¬ ip.isEmpty ∨ ¬ fp.isEmpty) then
        some ((natOfDigits ip : ℚ) + (natOfDigits fp : ℚ) / (10 : ℚ) ^ fp.length)
      else none
  | _ => none

/-- Optional sign in front of a decimal literal. -/
def jsNumberSigned : List Char → Option ℚ
  | '-' :: cs => (jsNumberCore cs).map (fun q => -q)
  | '+' :: cs => jsNumberCore cs
  | cs => jsNumberCore cs

/-- JS `Number(s)` for a string `s`: whitespace is trimmed and the empty
string converts to `0`; `none` models NaN. -/
def jsNumber (s : String) : Option ℚ :=
  let t := jsTrim s
  if t = "" then some 0 else jsNumberSigned t.data

/-- The bet normalization performed in the `spin` handler (and repeated in the
result-classification loop): numeric strings become numbers, other strings
are trimmed and lower-cased; non-strings pass through. -/
def normBet : BetVal → BetVal
  | .str s =>
      match jsNumber s with
      | some q => .num q
      | none => .str (jsLower (jsTrim s))
  | b => b

/-- The 18 red numbers hard-coded in `isRed`. -/
def redList : List ℚ := [1, 3, 5, 7, 9, 12, 14, 16, 18, 19, 21, 23, 25, 27, 30, 32, 34, 36]

/-- `isRed(n)`: membership in the red list. -/
def isRed (q : ℚ) : Bool := decide (q ∈ redList)

/-- `isBlack(n)`: any number other than `0` that is not red. -/
def isBlack (q : ℚ) : Bool := decide (q ≠ 0) && !(isRed q)

/-- Per-connection spin outcome classification. -/
inductive Outcome where
  | WIN
  | COLOR_ONLY
  | COLOR
  | LOSE
deriving DecidableEq, Repr

/-- The classification of one (already normalized) bet against the winning
number, exactly as in the `spin` handler's results loop. -/
def classify (bet : BetVal) (w : ℚ) : Outcome :=
  if bet = .num w then .WIN
  else if bet = .str "red" ∨ bet = .str "black" then
    if (bet = .str "red" ∧ isRed w = true) ∨ (bet = .str "black" ∧ isBlack w = true) then
      .COLOR_ONLY
    else .LOSE
  else
    match bet with
    | .num q =>
        if (isRed q = true ∧ isRed w = true) ∨ (isBlack q = true ∧ isBlack w = true) then .COLOR
        else .LOSE
    | _ => .LOSE

/-! ### JS objects as insertion-ordered association lists -/

/-- `obj[k] = v`: update in place if the key is present, else append. -/
def jsObjSet {α : Type} : List (String × α) → String → α → List (String × α)
  | [], k, v => [(k, v)]
  | p :: t, k, v => if p.1 = k then (k, v) :: t else p :: jsObjSet t k v

/-- `delete obj[k]`. -/
def jsObjDel {α : Type} (l : List (String × α)) (k : String) : List (String × α) :=
  l.filter (fun p => p.1 ≠ k)

theorem lookup_cons {α : Type} (p : String × α) (t : List (String × α)) (k : String) :
    (p :: t).lookup k = if k = p.1 then some p.2 else t.lookup k := by
  rcases p with ⟨a, b⟩
  by_cases h : k = a
  · simp [List.lookup, h]
  · have hb : (k == a) = false := beq_eq_false_iff_ne.mpr h
    simp [List.lookup, hb, h]

theorem jsObjSet_lookup_self {α : Type} (l : List (String × α)) (k : String) (v : α) :
    (jsObjSet l k v).lookup k = some v := by
  induction l with
  | nil => simp [jsObjSet, List.lookup]
  | cons p t ih =>
      by_cases hp : p.1 = k
      · simp [jsObjSet, hp, lookup_cons]
      · simp [jsObjSet, hp, lookup_cons, Ne.symm hp, ih]

theorem jsObjSet_lookup_other {α : Type} (l : List (String × α)) (k k' : String) (v : α)
    (h : k' ≠ k) : (jsObjSet l k v).lookup k' = l.lookup k' := by
  induction l with
  | nil => simp [jsObjSet, List.lookup, beq_eq_false_iff_ne.mpr h]
  | cons p t ih =>
      by_cases hp : p.1 = k
      · have h2 : k' ≠ p.1 := fun e => h (e.trans hp)
        simp [jsObjSet, hp, lookup_cons, h, h2]
      · simp [jsObjSet, hp, lookup_cons, ih]

theorem jsObjDel_lookup_self {α : Type} (l : List (String × α)) (k : String) :
    (jsObjDel l k).lookup k = none := by
  induction l with
  | nil => simp [jsObjDel]
  | cons p t ih =>
      by_cases hp : p.1 = k
      · simpa [jsObjDel, hp] using ih
      · simpa [jsObjDel, hp, lookup_cons, Ne.symm hp] using ih

theorem jsObjDel_lookup_other {α : Type} (l : List (String × α)) (k k' : String)
    (h : k' ≠ k) : (jsObjDel l k).lookup k' = l.lookup k' := by
  induction l with
  | nil => simp [jsObjDel]
  | cons p t ih =>
      by_cases hp : p.1 = k
      · have h2 : k' ≠ p.1 := fun e => h (e.trans hp)
        simpa [jsObjDel, hp, lookup_cons, h2, h] using ih
      · by_cases hp' : k' = p.1
        · simp [jsObjDel, hp, lookup_cons, hp']
        · simpa [jsObjDel, hp, lookup_cons, hp'] using ih

/-- A fresh-key assignment is an append. -/
theorem jsObjSet_of_fresh {α : Type} (l : List (String × α)) (k : String) (v : α)
    (h : ∀ p ∈ l, p.1 ≠ k) : jsObjSet l k v = l ++ [(k, v)] := by
  induction l with
  | nil => simp [jsObjSet]
  | cons p t ih =>
      have hp : p.1 ≠ k := h p (by simp)
      simp only [jsObjSet, if_neg hp, List.cons_append, List.cons.injEq, true_and]
      exact ih (fun q hq => h q (by simp [hq]))

/-! ### Engine state (the server's module-level mutable variables) -/

/-- One entry of `selections`: `{ name, bet }`. -/
structure Sel where
  name : Option String
  bet : BetVal
deriving DecidableEq, Repr

/-- One entry of `connectedSockets`: `{ name, code }`. -/
structure Conn where
  name : Option String
  code : Option String
deriving DecidableEq, Repr

/-- `socket.data` for one socket (set by the `join` handler). -/
structure SockData where
  name : Option String
  code : Option String
deriving DecidableEq, Repr

/-- One entry of `usersStatus`: `{ connected, socketId }`. -/
structure UStatus where
  connected : Bool
  socketId : Option String
deriving DecidableEq, Repr

/-- `lastSpinResult`: `{ winningNumber, results }`. -/
structure SpinResult where
  winningNumber : ℚ
  results : List (String × Outcome)
deriving DecidableEq, Repr

/-- Static configuration loaded from `users.txt` at startup: the registry
(`usersByCode`), its load order (`usersOrder`) and the derived
`DEALER_CODE`. -/
structure Config where
  usersOrder : List String
  usersByCode : List (String × String)
  dealerCode : Option String
deriving DecidableEq, Repr

/-- The engine's mutable state. -/
structure SState where
  dealerSocket : Option String
  betsOpen : Bool
  selections : List (String × Sel)
  weightBySocket : List (String × ℚ)
  lastSpinResult : Option SpinResult
  spinning : Bool
  connectedSockets : List (String × Conn)
  socketData : List (String × SockData)
  usersStatus : List (String × UStatus)
deriving DecidableEq, Repr

/-- Initial state: empty maps, no dealer, bets closed, one `usersStatus`
record per registry entry (`connected:false, socketId:null`). -/
def initState (cfg : Config) : SState where
  dealerSocket := none
  betsOpen := false
  selections := []
  weightBySocket := []
  lastSpinResult := none
  spinning := false
  connectedSockets := []
  socketData := []
  usersStatus := cfg.usersOrder.foldl (fun m c => jsObjSet m c ⟨false, none⟩) []

/-- The `/^\d{6}$/` test applied to `join` identifiers. -/
def isSixDigits (s : String) : Bool := s.length = 6 && s.toList.all Char.isDigit

/-- The `join` handler (lines 68-112): resolve the identifier, update
`socket.data`, possibly auto-grant the dealer slot, then record the
connection and mark the user's status connected.  (The broadcasts it sends
carry no state.) -/
def stepJoin (cfg : Config) (sid ident : String) (s : SState) : SState :=
  let s1 :=
    if isSixDigits ident then
      match cfg.usersByCode.lookup ident with
      | some name =>
          let s' := { s with socketData := jsObjSet s.socketData sid ⟨some name, some ident⟩ }
          if cfg.dealerCode = some ident ∧ s'.dealerSocket = none then
            { s' with dealerSocket := some sid }
          else s'
      | none =>
          let old := (s.socketData.lookup sid).getD ⟨none, none⟩
          { s with socketData := jsObjSet s.socketData sid ⟨some "Unknown", old.code⟩ }
    else
      let old := (s.socketData.lookup sid).getD ⟨none, none⟩
      { s with socketData := jsObjSet s.socketData sid ⟨some ident, old.code⟩ }
  let sd := (s1.socketData.lookup sid).getD ⟨none, none⟩
  let s2 := { s1 with connectedSockets := jsObjSet s1.connectedSockets sid ⟨sd.name, sd.code⟩ }
  { s2 with
    usersStatus :=
      match sd.code with
      | some code => jsObjSet s2.usersStatus code ⟨true, some sid⟩
      | none => s2.usersStatus }

/-- The `dealerLogin` handler (lines 128-137). -/
def stepDealerLogin (cfg : Config) (sid code : String) (s : SState) : SState :=
  if cfg.dealerCode = some code ∧ s.dealerSocket = none then
    { s with dealerSocket := some sid }
  else s

/-- The `disconnect` handler (lines 139-158). -/
def stepDisconnect (sid : String) (s : SState) : SState :=
  let s1 :=
    if s.dealerSocket = some sid then { s with dealerSocket := none, betsOpen := false } else s
  let s2 := { s1 with selections := jsObjDel s1.selections sid }
  let s3 :=
    { s2 with
      usersStatus :=
        match (s2.socketData.lookup sid).bind (fun d => d.code) with
        | some code =>
            if (s2.usersStatus.lookup code).isSome then jsObjSet s2.usersStatus code ⟨false, none⟩
            else s2.usersStatus
        | none => s2.usersStatus }
  { s3 with connectedSockets := jsObjDel s3.connectedSockets sid }

/-- The `select` handler (lines 160-166): refuse while bets are closed or
when the caller is the dealer; otherwise store the submitted value verbatim. -/
def stepSelect (sid : String) (bet : BetVal) (s : SState) : SState :=
  if s.betsOpen = false then s
  else if s.dealerSocket = some sid then s
  else
    { s with
      selections :=
        jsObjSet s.selections sid ⟨(s.socketData.lookup sid).bind (fun d => d.name), bet⟩ }

/-- The `setWeight` handler (lines 115-126): dealer-only; `Number(weight)`
yielding NaN is modelled by `none`; the weight is clamped to `[0, 10]` and
recorded only for a currently connected target. -/
def stepSetWeight (sid target : String) (w : Option ℚ) (s : SState) : SState :=
  if s.dealerSocket = some sid then
    match w with
    | none => s
    | some q =>
        let val := max 0 (min 10 q)
        if (s.connectedSockets.lookup target).isSome then
          { s with weightBySocket := jsObjSet s.weightBySocket target val }
        else s
  else s

/-- The `openBets` handler (lines 203-208). -/
def stepOpenBets (sid : String) (s : SState) : SState :=
  if s.dealerSocket = some sid then { s with betsOpen := true } else s

/-- The `closeBets` handler (lines 210-215). -/
def stepCloseBets (sid : String) (s : SState) : SState :=
  if s.dealerSocket = some sid then { s with betsOpen := false } else s

/-- The deferred `setTimeout` callback that releases the spin lock. -/
def stepSpinEnd (s : SState) : SState := { s with spinning := false }

/-! ### The outcome engine (`spin` handler, lines 217-410)

`colorInfo` (lines 248-271) is computed by the handler but never read
afterwards, so it is not modelled. -/

/-- Effective weight of a connection: `weightBySocket[sid]`, default `1`. -/
def wOf (ws : List (String × ℚ)) (sid : String) : ℚ := (ws.lookup sid).getD 1

/-- The ledger with each bet normalized as in the spin handler's loops. -/
def normSels (sels : List (String × Sel)) : List (String × BetVal) :=
  sels.map (fun p => (p.1, normBet p.2.bet))

/-- `bettorsByNumber[n]` for an integer cell `n`: connections whose
normalized bet is exactly the number `n`. -/
def bettorsByNumber (sels : List (String × Sel)) (n : ℕ) : List String :=
  (normSels sels).filterMap (fun p =>
    match p.2 with
    | .num q => if q = (n : ℚ) then some p.1 else none
    | _ => none)

/-- `bettorsByColor[c]`: connections whose normalized bet is the color `c`. -/
def bettorsByColor (sels : List (String × Sel)) (c : String) : List String :=
  (normSels sels).filterMap (fun p =>
    match p.2 with
    | .str s => if s = c then some p.1 else none
    | _ => none)

/-- The `anyNumeric` flag: some normalized bet is a number in `[0, 36]`
(the handler's test admits non-integers such as `3.5` here even though they
land in array cells the later integer-indexed loops never read). -/
def anyNumeric (sels : List (String × Sel)) : Bool :=
  (normSels sels).any (fun p =>
    match p.2 with
    | .num q => decide (0 ≤ q ∧ q ≤ 36)
    | _ => false)

/-- The `anyColor` flag: some normalized bet is `"red"` or `"black"`. -/
def anyColor (sels : List (String × Sel)) : Bool :=
  (normSels sels).any (fun p => decide (p.2 = .str "red" ∨ p.2 = .str "black"))

/-- `highWeightNumbers[n]` (0 when absent): high-weight (`weight >= 2`)
numeric bettors on `n`, plus every high-weight red (resp. black) bettor when
`n` is red (resp. black). -/
def highCount (sels : List (String × Sel)) (ws : List (String × ℚ)) (n : ℕ) : ℕ :=
  ((bettorsByNumber sels n).filter (fun sid => decide (2 ≤ wOf ws sid))).length
    + (if isRed (n : ℚ) then
        ((bettorsByColor sels "red").filter (fun sid => decide (2 ≤ wOf ws sid))).length
      else 0)
    + (if isBlack (n : ℚ) then
        ((bettorsByColor sels "black").filter (fun sid => decide (2 ≤ wOf ws sid))).length
      else 0)

/-- `Object.keys(highWeightNumbers)` in ascending numeric order (JS objects
enumerate integer-like keys ascending). -/
def highKeys (sels : List (String × Sel)) (ws : List (String × ℚ)) : List ℕ :=
  (List.range 37).filter (fun n => highCount sels ws n ≠ 0)

/-- The cumulative-distribution draw loop shared by both selection branches:
walk the `(index, weight)` pairs accumulating `weight / total`, returning the
first index whose accumulated bound reaches `r`. -/
def cdfLoop (total r : ℚ) : List (ℕ × ℚ) → ℚ → Option ℕ
  | [], _ => none
  | (n, c) :: rest, acc =>
      if r ≤ acc + c / total then some n else cdfLoop total r rest (acc + c / total)

/-- The per-number weight of the normal (no high-weight bettor) branch:
base weight 1 when unbet, `1 + (sum of positive covering weights)` when bet,
and 0 when every covering bettor has non-positive weight. -/
def numWeight (sels : List (String × Sel)) (ws : List (String × ℚ)) (n : ℕ) : ℚ :=
  let numericSids := bettorsByNumber sels n
  let colorSids :=
    if isRed (n : ℚ) then bettorsByColor sels "red"
    else if isBlack (n : ℚ) then bettorsByColor sels "black"
    else []
  let hasAnyBettor := ¬ numericSids.isEmpty ∨ ¬ colorSids.isEmpty
  let sumPos :=
    ((numericSids ++ colorSids).map (fun sid =>
      if 0 < wOf ws sid then wOf ws sid else 0)).sum
  if ¬ hasAnyBettor then 1
  else if sumPos ≤ 0 then 0
  else 1 + sumPos

/-- The winning-number selection of the `spin` handler.  `randoms` is the
client-supplied seed list (averaged), `r` the single `Math.random()` draw. -/
def spinWinningNumber (sels : List (String × Sel)) (ws : List (String × ℚ))
    (randoms : List ℚ) (r : ℚ) : ℚ :=
  if anyNumeric sels = true ∨ anyColor sels = true then
    if highKeys sels ws ≠ [] then
      match
        cdfLoop ((((highKeys sels ws).map (fun n => highCount sels ws n)).sum : ℕ) : ℚ) r
          ((highKeys sels ws).map (fun n => (n, (highCount sels ws n : ℚ)))) 0 with
      | some n => (n : ℚ)
      | none => (((highKeys sels ws).headD 0 : ℕ) : ℚ)
    else
      if ((List.range 37).map (fun n => numWeight sels ws n)).sum ≤ 0 then
        ((⌊randoms.sum / (randoms.length : ℚ) * 37⌋ : ℤ) : ℚ)
      else
        match
          cdfLoop (((List.range 37).map (fun n => numWeight sels ws n)).sum) r
            ((List.range 37).map (fun n => (n, numWeight sels ws n))) 0 with
        | some i => (i : ℚ)
        | none => ((⌊r * 37⌋ : ℤ) : ℚ)
  else ((⌊randoms.sum / (randoms.length : ℚ) * 37⌋ : ℤ) : ℚ)

/-- The per-connection results map of a spin. -/
def spinResults (sels : List (String × Sel)) (w : ℚ) : List (String × Outcome) :=
  sels.map (fun p => (p.1, classify (normBet p.2.bet) w))

/-- The `spin` handler: dealer-only, refused while `spinning`; closes bets,
stores the result and sets the spin lock. -/
def stepSpin (sid : String) (randoms : List ℚ) (r : ℚ) (s : SState) : SState :=
  if s.dealerSocket = some sid then
    if s.spinning = true then s
    else
      let w := spinWinningNumber s.selections s.weightBySocket randoms r
      { s with
        betsOpen := false
        lastSpinResult := some ⟨w, spinResults s.selections w⟩
        spinning := true }
  else s

/-! ### The transition system -/

/-- One inbound event. `spin` carries the client seed list and the value of
the single `Math.random()` draw; `spinEnd` is the spin-lock timer firing. -/
inductive Op where
  | join (sid ident : String)
  | dealerLogin (sid code : String)
  | disconnect (sid : String)
  | select (sid : String) (bet : BetVal)
  | setWeight (sid target : String) (w : Option ℚ)
  | openBets (sid : String)
  | closeBets (sid : String)
  | spin (sid : String) (randoms : List ℚ) (r : ℚ)
  | spinEnd
deriving DecidableEq, Repr

/-- Dispatch one event to its handler. -/
def step (cfg : Config) (op : Op) (s : SState) : SState :=
  match op with
  | .join sid ident => stepJoin cfg sid ident s
  | .dealerLogin sid code => stepDealerLogin cfg sid code s
  | .disconnect sid => stepDisconnect sid s
  | .select sid bet => stepSelect sid bet s
  | .setWeight sid target w => stepSetWeight sid target w s
  | .openBets sid => stepOpenBets sid s
  | .closeBets sid => stepCloseBets sid s
  | .spin sid randoms r => stepSpin sid randoms r s
  | .spinEnd => stepSpinEnd s

/-- The state reached from startup by a sequence of events. -/
def runOps (cfg : Config) (ops : List Op) : SState :=
  ops.foldl (fun s op => step cfg op s) (initState cfg)

/-! ### The leaderboard compositor (`emitLeaderboard`, lines 168-201) -/

/-- One leaderboard row: `{ name, bet, connected, weight }` (`weight: null`
for disconnected registered users). -/
structure Row where
  name : Option String
  bet : BetVal
  connected : Bool
  weight : Option ℚ
deriving DecidableEq, Repr

/-- The row's bet field: `selections[sid].bet` unless absent or `undefined`,
in which case `null`. -/
def lbBet (s : SState) (sid : String) : BetVal :=
  match s.selections.lookup sid with
  | some sel => if sel.bet = .undef then .nullv else sel.bet
  | none => .nullv

/-- The truthiness test
`status.connected && status.socketId && connectedSockets[status.socketId]`:
`some sid` when the registered user renders as connected under `sid`. -/
def regLiveSid (s : SState) (status : UStatus) : Option String :=
  match status.socketId with
  | some sid =>
      if status.connected = true ∧ sid ≠ "" ∧ (s.connectedSockets.lookup sid).isSome then some sid
      else none
  | none => none

/-- The guest filter: keep sockets whose code (if any) has no `usersStatus`
record. -/
def isGuest (s : SState) (info : Conn) : Bool :=
  match info.code with
  | some c => !(s.usersStatus.lookup c).isSome
  | none => true

/-- Lexicographic comparison of code-point sequences: the order the
comparator's string comparison computes. -/
def natListLe : List ℕ → List ℕ → Bool
  | [], _ => true
  | _ :: _, [] => false
  | a :: as, b :: bs => if a < b then true else if b < a then false else natListLe as bs

/-- The sort key of a row: the code points of the lower-cased display
name, with a missing name read as the empty string. -/
def nameKey (o : Option String) : List ℕ :=
  (jsLower (o.getD "")).data.map Char.toNat

/-- The comparator passed to `.sort`, on lower-cased display names. -/
def nameLe (a b : String × Conn) : Bool :=
  natListLe (nameKey a.2.name) (nameKey b.2.name)

/-- One registered user's key and row (lines 174-183): when the status
truthiness test passes, the key is the active socket id and the row shows
the live bet and weight (default 1); otherwise the key is the stable
pseudo-key `"u:" ++ code` and the row has bet null, weight null,
connected false.  Either way the name comes from the registry. -/
def regEntry (cfg : Config) (s : SState) (code : String) : String × Row :=
  match regLiveSid s ((s.usersStatus.lookup code).getD ⟨false, none⟩) with
  | some sid =>
      (sid, ⟨cfg.usersByCode.lookup code, lbBet s sid, true, some (wOf s.weightBySocket sid)⟩)
  | none => ("u:" ++ code, ⟨cfg.usersByCode.lookup code, .nullv, false, none⟩)

/-- One guest socket's key and row (line 197): keyed by the socket id,
connected, with the connection's display name, live bet and weight
(default 1). -/
def guestEntry (s : SState) (p : String × Conn) : String × Row :=
  (p.1, ⟨p.2.name, lbBet s p.1, true, some (wOf s.weightBySocket p.1)⟩)

/-- The composed leaderboard view: registry-ordered assignments for
registered users, then the remaining connected sockets stably sorted by
name. -/
def emitLeaderboard (cfg : Config) (s : SState) : List (String × Row) :=
  (List.insertionSort (fun a b => nameLe a b = true)
      (s.connectedSockets.filter (fun p => isGuest s p.2))).foldl
    (fun ord p => jsObjSet ord (guestEntry s p).1 (guestEntry s p).2)
    (cfg.usersOrder.foldl
      (fun ord code => jsObjSet ord (regEntry cfg s code).1 (regEntry cfg s code).2) [])

/-! ### Specification-side vocabulary

These definitions follow the wording of the specification (bettors, the
bets they cover, validity of a bet shape) and are compared against the
code-derived definitions above in the theorems below. -/

/-- A bet of the shape admitted by the spec's data model: an integer
`0..36`, `"red"` or `"black"` (after normalization). -/
def isValidBet (b : BetVal) : Prop :=
  b = .str "red" ∨ b = .str "black" ∨ ∃ n ∈ Finset.range 37, b = .num (n : ℚ)

instance : DecidablePred isValidBet := fun b => by unfold isValidBet; infer_instance

/-- The numbers covered by a normalized bet, in the spec's sense: a numeric
bettor covers exactly their number, a color bettor covers every number of
that color (among the wheel's numbers 0..36). -/
def covers (b : BetVal) (n : ℕ) : Prop :=
  n ≤ 36 ∧
    (b = .num (n : ℚ) ∨ (b = .str "red" ∧ isRed (n : ℚ) = true) ∨
      (b = .str "black" ∧ isBlack (n : ℚ) = true))

instance : ∀ b n, Decidable (covers b n) := fun b n => by unfold covers; infer_instance

/-- A covering bet is a valid bet. -/
theorem covers_valid {b : BetVal} {n : ℕ} (h : covers b n) : isValidBet b := by
  rcases h with ⟨hn, h | ⟨h, -⟩ | ⟨h, -⟩⟩
  · exact Or.inr (Or.inr ⟨n, by simpa using hn.trans_lt (by omega), h⟩)
  · exact Or.inl h
  · exact Or.inr (Or.inl h)

/-- Number of distinct high-weight (weight ≥ 2) bettors covering `n`, in the
spec's sense. -/
def specHighCount (sels : List (String × Sel)) (ws : List (String × ℚ)) (n : ℕ) : ℕ :=
  sels.countP (fun p => decide (covers (normBet p.2.bet) n ∧ 2 ≤ wOf ws p.1))

/-- A small concrete registry (user `111111` is the dealer, `222222` is
Alice) used by the concrete instances below. -/
def cfgA : Config :=
  ⟨["111111", "222222"], [("111111", "Dealer"), ("222222", "Alice")], some "111111"⟩

/-! ### Claim C5: dealer arbitration -/

/-- The dealer slot after a `join`: granted to the joining socket exactly
when the identifier resolves, matches the dealer code and the slot is empty;
unchanged otherwise. -/
theorem stepJoin_dealerSocket (cfg : Config) (sid ident : String) (s : SState) :
    (stepJoin cfg sid ident s).dealerSocket =
      if isSixDigits ident = true ∧ (cfg.usersByCode.lookup ident).isSome ∧
          cfg.dealerCode = some ident ∧ s.dealerSocket = none then
        some sid
      else s.dealerSocket := by
  unfold stepJoin
  repeat' split
  all_goals try simp_all
  all_goals try (split <;> simp_all)
  all_goals
    rename_i heq h
  all_goals
    obtain ⟨x, hx⟩ := h.2.1
  all_goals
    exact heq ident x hx rfl

/-- C5: at most one connection holds the dealer slot (it is an `Option`,
holding at most one socket id); a `dealerLogin` while the slot is held is a
complete no-op, a `join` while it is held leaves the slot unchanged, and
either operation assigns the slot only when it was empty and the supplied
code equals the registry's designated dealer code. -/
theorem spec_C5 (cfg : Config) (s : SState) (sid code sid' ident : String) :
    (s.dealerSocket.isSome = true → stepDealerLogin cfg sid code s = s) ∧
    (s.dealerSocket.isSome = true → (stepJoin cfg sid' ident s).dealerSocket = s.dealerSocket) ∧
    ((stepDealerLogin cfg sid code s).dealerSocket ≠ s.dealerSocket →
      s.dealerSocket = none ∧ cfg.dealerCode = some code) ∧
    ((stepJoin cfg sid' ident s).dealerSocket ≠ s.dealerSocket →
      s.dealerSocket = none ∧ cfg.dealerCode = some ident) := by
  refine ⟨?_, ?_, ?_, ?_⟩
  · intro h
    unfold stepDealerLogin
    rw [if_neg]
    rintro ⟨-, h2⟩
    rw [h2] at h
    simp at h
  · intro h
    rw [stepJoin_dealerSocket]
    rw [if_neg]
    rintro ⟨-, -, -, h2⟩
    rw [h2] at h
    simp at h
  · intro h
    unfold stepDealerLogin at h
    by_cases hc : cfg.dealerCode = some code ∧ s.dealerSocket = none
    · exact ⟨hc.2, hc.1⟩
    · rw [if_neg hc] at h
      exact absurd rfl h
  · intro h
    rw [stepJoin_dealerSocket] at h
    by_cases hc : isSixDigits ident = true ∧ (cfg.usersByCode.lookup ident).isSome ∧
        cfg.dealerCode = some ident ∧ s.dealerSocket = none
    · exact ⟨hc.2.2.2, hc.2.2.1⟩
    · rw [if_neg hc] at h
      exact absurd rfl h

/-- Witness for C5 at a concrete held-slot state: the dealer login attempt
by a second connection is a no-op. -/
theorem spec_C5_witness :
    stepDealerLogin cfgA "s2" "111111" (runOps cfgA [.join "s1" "111111"]) =
      runOps cfgA [.join "s1" "111111"] :=
  (spec_C5 cfgA (runOps cfgA [.join "s1" "111111"]) "s2" "111111" "s2" "111111").1 (by decide)

/-! ### Claim C9: an open betting window implies a present dealer -/

/-- A `join` never changes the betting window. -/
theorem stepJoin_betsOpen (cfg : Config) (sid ident : String) (s : SState) :
    (stepJoin cfg sid ident s).betsOpen = s.betsOpen := by
  simp only [stepJoin]
  repeat' split
  all_goals rfl

/-- Every handler preserves "window open implies dealer present". -/
theorem step_openDealer (cfg : Config) (op : Op) (s : SState)
    (h : s.betsOpen = true → s.dealerSocket ≠ none) :
    (step cfg op s).betsOpen = true → (step cfg op s).dealerSocket ≠ none := by
  cases op with
  | join sid ident =>
      rw [step, stepJoin_betsOpen, stepJoin_dealerSocket]
      intro hb
      split
      · simp
      · exact h hb
  | dealerLogin sid code =>
      simp only [step, stepDealerLogin]
      split
      · intro _
        simp
      · exact h
  | disconnect sid =>
      simp only [step, stepDisconnect]
      split
      · intro hb
        simp at hb
      · exact h
  | select sid bet =>
      simp only [step, stepSelect]
      split
      · exact h
      · split
        · exact h
        · exact h
  | setWeight sid target w =>
      simp only [step, stepSetWeight]
      repeat' split
      all_goals intro hb
      all_goals simp_all
  | openBets sid =>
      simp only [step, stepOpenBets]
      split
      · intro _
        simp_all
      · exact h
  | closeBets sid =>
      simp only [step, stepCloseBets]
      split
      · intro hb
        simp at hb
      · exact h
  | spin sid randoms r =>
      simp only [step, stepSpin]
      split
      · split
        · exact h
        · intro hb
          simp at hb
      · exact h
  | spinEnd =>
      simp only [step, stepSpinEnd]
      exact h

/-- The fold of any event sequence preserves "open implies dealer". -/
theorem foldl_openDealer (cfg : Config) (ops : List Op) :
    ∀ s : SState, (s.betsOpen = true → s.dealerSocket ≠ none) →
      ((ops.foldl (fun s op => step cfg op s) s).betsOpen = true →
        (ops.foldl (fun s op => step cfg op s) s).dealerSocket ≠ none) := by
  induction ops with
  | nil => exact fun s hs => hs
  | cons op t ih => exact fun s hs => ih (step cfg op s) (step_openDealer cfg op s hs)

/-- C9: in every reachable state, if the betting window is open then the
dealer slot is non-empty — the window is only opened by the current dealer
and the dealer's disconnect closes it in the same step. -/
theorem spec_C9 (cfg : Config) (ops : List Op)
    (h : (runOps cfg ops).betsOpen = true) : (runOps cfg ops).dealerSocket ≠ none :=
  foldl_openDealer cfg ops (initState cfg) (by simp [initState]) h

/-- Witness for C9: a concrete reachable state with the window open has a
dealer. -/
theorem spec_C9_witness :
    (runOps cfgA [.join "s1" "111111", .openBets "s1"]).dealerSocket ≠ none :=
  spec_C9 cfgA [.join "s1" "111111", .openBets "s1"] (by decide)

end Roulette


namespace Roulette

/-! ### Claim C6: the dealer and the bet ledger -/

/-- C6 (amended): the engine never accepts a bet from the connection
currently holding the dealer slot — a `select` by the current dealer is a
complete no-op.  (The invariant as originally stated fails: a connection
may bet while not dealer and later acquire the dealer slot with its bet
still in the ledger, see the counterexample.) -/
theorem spec_C6_amended (s : SState) (sid : String) (bet : BetVal)
    (h : s.dealerSocket = some sid) : stepSelect sid bet s = s := by
  unfold stepSelect
  by_cases hb : s.betsOpen = false
  · rw [if_pos hb]
  · rw [if_neg hb, if_pos h]

/-- Witness for C6: the dealer's own bet attempt at a concrete state is
dropped. -/
theorem spec_C6_witness :
    stepSelect "s1" (.num 5) (runOps cfgA [.join "s1" "111111", .openBets "s1"]) =
      runOps cfgA [.join "s1" "111111", .openBets "s1"] :=
  spec_C6_amended (runOps cfgA [.join "s1" "111111", .openBets "s1"]) "s1" (.num 5) (by decide)

/-- C6 counterexample: a reachable state whose current dealer holds a bet —
Alice bets 5, the dealer disconnects (which does not clear other bets), and
Alice then claims the dealer slot with the dealer code. -/
theorem spec_C6_cex :
    (runOps cfgA [.join "s1" "111111", .openBets "s1", .join "s2" "222222",
        .select "s2" (.num 5), .disconnect "s1", .dealerLogin "s2" "111111"]).dealerSocket
        = some "s2" ∧
    (runOps cfgA [.join "s1" "111111", .openBets "s1", .join "s2" "222222",
        .select "s2" (.num 5), .disconnect "s1", .dealerLogin "s2" "111111"]).selections.lookup
        "s2" = some ⟨some "Alice", .num 5⟩ := by
  decide

/-! ### Claim C4: bet submission -/

/-- C4 (amended): a bet is recorded exactly when the window is open and the
caller is not the dealer; the submitted value is stored verbatim with no
shape validation (normalization and validation happen only at spin time),
and submitting `null` stores a null bet entry rather than clearing the
caller's ledger entry. -/
theorem spec_C4_amended (s : SState) (sid : String) (bet : BetVal) :
    (s.betsOpen = false → stepSelect sid bet s = s) ∧
    (s.dealerSocket = some sid → stepSelect sid bet s = s) ∧
    (s.betsOpen = true → s.dealerSocket ≠ some sid →
      ∃ sel, (stepSelect sid bet s).selections.lookup sid = some sel ∧ sel.bet = bet ∧
        ∀ sid', sid' ≠ sid →
          (stepSelect sid bet s).selections.lookup sid' = s.selections.lookup sid') := by
  refine ⟨?_, ?_, ?_⟩
  · intro h
    unfold stepSelect
    rw [if_pos h]
  · exact spec_C6_amended s sid bet
  · intro hb hd
    unfold stepSelect
    rw [if_neg (by simp [hb]), if_neg hd]
    exact ⟨⟨(s.socketData.lookup sid).bind (fun d => d.name), bet⟩,
      jsObjSet_lookup_self _ _ _, rfl, fun sid' hne => jsObjSet_lookup_other _ _ _ _ hne⟩

/-- Witness for C4: a concrete open-window bet by a non-dealer is recorded
verbatim. -/
theorem spec_C4_witness :
    ∃ sel, ((stepSelect "s2" (.str "banana")
        (runOps cfgA [.join "s1" "111111", .openBets "s1", .join "s2" "222222"])).selections.lookup
        "s2") = some sel ∧ sel.bet = .str "banana" ∧
        ∀ sid', sid' ≠ "s2" →
          ((stepSelect "s2" (.str "banana")
            (runOps cfgA [.join "s1" "111111", .openBets "s1", .join "s2" "222222"])).selections.lookup
            sid') =
          ((runOps cfgA [.join "s1" "111111", .openBets "s1", .join "s2" "222222"]).selections.lookup
            sid') :=
  (spec_C4_amended (runOps cfgA [.join "s1" "111111", .openBets "s1", .join "s2" "222222"])
    "s2" (.str "banana")).2.2 (by decide) (by decide)

/-- C4 counterexample: submitting the unaccepted shape `"banana"` while the
window is open is not rejected — the ledger changes; and submitting `null`
does not clear the entry, it stores a null bet. -/
theorem spec_C4_cex :
    ((runOps cfgA [.join "s1" "111111", .openBets "s1", .join "s2" "222222"]).selections.lookup
      "s2" = none) ∧
    ((runOps cfgA [.join "s1" "111111", .openBets "s1", .join "s2" "222222",
        .select "s2" (.str "banana")]).selections.lookup "s2" =
      some ⟨some "Alice", .str "banana"⟩) ∧
    ¬ isValidBet (normBet (.str "banana")) ∧
    ((runOps cfgA [.join "s1" "111111", .openBets "s1", .join "s2" "222222",
        .select "s2" (.num 5), .select "s2" .nullv]).selections.lookup "s2" =
      some ⟨some "Alice", .nullv⟩) := by
  decide

end Roulette

namespace Roulette

/-! ### Claim C10: the empty-string bet -/

/-- Looking up one connection's entry in the spin results map. -/
theorem spinResults_lookup (sels : List (String × Sel)) (w : ℚ) (id : String) (sel : Sel)
    (h : sels.lookup id = some sel) :
    (spinResults sels w).lookup id = some (classify (normBet sel.bet) w) := by
  induction sels with
  | nil => simp [List.lookup] at h
  | cons p t ih =>
      rw [lookup_cons] at h
      simp only [spinResults, List.map_cons]
      rw [lookup_cons]
      by_cases hp : id = p.1
      · rw [if_pos hp] at h
        cases h
        rw [if_pos hp]
      · rw [if_neg hp] at h
        rw [if_neg hp]
        exact ih h

/-- The empty-string bet normalizes to the number 0 and is classified WIN
against winning number 0 and LOSE otherwise. -/
theorem classify_emptyString (w : ℚ) :
    classify (normBet (.str "")) w = if w = 0 then .WIN else .LOSE := by
  have h : normBet (.str "") = .num 0 := rfl
  rw [h]
  by_cases hw : w = 0
  · simp [classify, hw]
  · have h1 : ¬ (BetVal.num 0 = BetVal.num w) := by
      simp only [BetVal.num.injEq]
      exact fun e => hw e.symm
    have h2 : isRed 0 = false := by decide
    have h3 : isBlack 0 = false := by decide
    simp [classify, h1, h2, h3, hw]

/-- C10: a connection whose stored bet is the empty string is normalized to
the number 0 at spin time (because `Number("")` is 0): it is classified WIN
exactly when the winning number is 0 and LOSE otherwise, and it does receive
a results entry (it is not treated as having no bet). -/
theorem spec_C10 (s : SState) (sid : String) (randoms : List ℚ) (r : ℚ) (id : String)
    (sel : Sel) (hd : s.dealerSocket = some sid) (hsp : s.spinning = false)
    (hin : s.selections.lookup id = some sel) (hbet : sel.bet = .str "") :
    normBet (.str "") = .num 0 ∧
    ∃ res, (stepSpin sid randoms r s).lastSpinResult = some res ∧
      res.results.lookup id = some (if res.winningNumber = 0 then .WIN else .LOSE) := by
  refine ⟨rfl, ?_⟩
  unfold stepSpin
  rw [if_pos hd, if_neg (by simp [hsp])]
  refine ⟨_, rfl, ?_⟩
  rw [show (⟨spinWinningNumber s.selections s.weightBySocket randoms r,
      spinResults s.selections
        (spinWinningNumber s.selections s.weightBySocket randoms r)⟩ : SpinResult).results =
    spinResults s.selections (spinWinningNumber s.selections s.weightBySocket randoms r) from rfl]
  rw [spinResults_lookup s.selections _ id sel hin, hbet, classify_emptyString]

/-- Witness for C10 at a concrete reachable state: Alice submitted `""`. -/
theorem spec_C10_witness :
    normBet (.str "") = .num 0 ∧
    ∃ res, (stepSpin "s1" [1/2] 0
        (runOps cfgA [.join "s1" "111111", .openBets "s1", .join "s2" "222222",
          .select "s2" (.str "")])).lastSpinResult = some res ∧
      res.results.lookup "s2" = some (if res.winningNumber = 0 then .WIN else .LOSE) :=
  spec_C10 _ "s1" [1/2] 0 "s2" ⟨some "Alice", .str ""⟩ (by decide) (by decide) (by decide) rfl

end Roulette
namespace Roulette

/-! ### Claim C3: result classification -/

/-- Wheel colors, spec-side. -/
inductive SpecColor where
  | red
  | black
deriving DecidableEq, Repr

/-- Color assignment under the amended claim C3: red is membership in the
standard 18-number red list; black is any other number different from 0.
Within 0..36 this is the standard 18/18 partition; numeric values outside
0..36 thus count as black. -/
def amendColor (q : ℚ) : Option SpecColor :=
  if isRed q = true then some .red else if q = 0 then none else some .black

/-- Classification of a ledger bet per the amended claim C3: WIN on an exact
normalized match, COLOR_ONLY for a direct matching color bet, COLOR for a
numeric bet sharing the winning color (and differing from the winning
number), LOSE otherwise. -/
def specClassifyAmended (b : BetVal) (w : ℚ) : Outcome :=
  match normBet b with
  | .num q =>
      if q = w then .WIN
      else if (amendColor q).isSome ∧ amendColor q = amendColor w then .COLOR
      else .LOSE
  | .str t =>
      if t = "red" ∧ amendColor w = some .red then .COLOR_ONLY
      else if t = "black" ∧ amendColor w = some .black then .COLOR_ONLY
      else .LOSE
  | _ => .LOSE

/-- Matching colors in the amended sense agree with the code's `isRed` and
`isBlack` tests. -/
theorem amendColor_match_iff (q w : ℚ) :
    ((amendColor q).isSome ∧ amendColor q = amendColor w) ↔
      ((isRed q = true ∧ isRed w = true) ∨ (isBlack q = true ∧ isBlack w = true)) := by
  unfold amendColor isBlack
  by_cases h1 : isRed q = true <;> by_cases h2 : isRed w = true <;>
    by_cases h3 : q = 0 <;> by_cases h4 : w = 0 <;>
      simp [h1, h2, h3, h4]

/-- The code's classification of a normalized bet coincides with the amended
claim's classification. -/
theorem classify_eq_specAmended (b : BetVal) (w : ℚ) :
    classify (normBet b) w = specClassifyAmended b w := by
  rw [show classify (normBet b) w = classify (normBet b) w from rfl]
  cases h : normBet b with
  | num q =>
      simp only [specClassifyAmended, h]
      by_cases hqw : q = w
      · simp [classify, hqw]
      · have h1 : ¬ (BetVal.num q = BetVal.num w) := by
          simp only [BetVal.num.injEq]
          exact hqw
        have h2 : ¬ (BetVal.num q = BetVal.str "red" ∨ BetVal.num q = BetVal.str "black") := by
          simp
        rw [classify, if_neg h1, if_neg h2]
        rw [if_neg hqw]
        by_cases hc : (amendColor q).isSome ∧ amendColor q = amendColor w
        · rw [if_pos ((amendColor_match_iff q w).mp hc)]
          rw [if_pos hc]
        · rw [if_neg (fun hh => hc ((amendColor_match_iff q w).mpr hh))]
          rw [if_neg hc]
  | str t =>
      simp only [specClassifyAmended, h]
      have h1 : ¬ (BetVal.str t = BetVal.num w) := by simp
      rw [classify, if_neg h1]
      rotate_left
      · intro q hq
        exact BetVal.noConfusion hq
      by_cases hred : t = "red"
      · subst hred
        rw [if_pos (Or.inl rfl)]
        by_cases hw : isRed w = true
        · rw [if_pos (Or.inl ⟨rfl, hw⟩)]
          rw [if_pos ⟨rfl, by simp [amendColor, hw]⟩]
        · have hnot : ¬ ((BetVal.str "red" = BetVal.str "red" ∧ isRed w = true) ∨
              (BetVal.str "red" = BetVal.str "black" ∧ isBlack w = true)) := by
            simp [hw]
          rw [if_neg hnot]
          rw [if_neg (by simp [amendColor, hw]), if_neg (by simp)]
      · by_cases hblack : t = "black"
        · subst hblack
          rw [if_pos (Or.inr rfl)]
          by_cases hw : isBlack w = true
          · rw [if_pos (Or.inr ⟨rfl, hw⟩)]
            have hcol : amendColor w = some .black := by
              have := hw
              unfold isBlack at this
              simp only [Bool.and_eq_true, Bool.not_eq_eq_eq_not, Bool.not_true,
                decide_eq_true_eq] at this
              simp [amendColor, this.2, this.1]
            rw [if_neg (by simp), if_pos ⟨rfl, hcol⟩]
          · have hnot : ¬ ((BetVal.str "black" = BetVal.str "red" ∧ isRed w = true) ∨
                (BetVal.str "black" = BetVal.str "black" ∧ isBlack w = true)) := by
              simp [hw]
            rw [if_neg hnot]
            have hcol : ¬ amendColor w = some .black := by
              intro he
              apply hw
              unfold amendColor at he
              unfold isBlack
              by_cases hr : isRed w = true
              · rw [if_pos hr] at he
                exact absurd he (by simp)
              · rw [if_neg hr] at he
                by_cases h0 : w = 0
                · rw [if_pos h0] at he
                  exact absurd he (by simp)
                · simp [h0, Bool.eq_false_iff.mpr hr]
            rw [if_neg (by simp), if_neg (by simp [hcol])]
        · have hnot : ¬ (BetVal.str t = BetVal.str "red" ∨ BetVal.str t = BetVal.str "black") := by
            simp [hred, hblack]
          rw [if_neg hnot]
          rw [if_neg (by simp [hred]), if_neg (by simp [hblack])]
  | nullv =>
      simp only [specClassifyAmended, h]
      rw [classify, if_neg (by simp), if_neg (by simp)]
      all_goals intro q hq
      all_goals exact BetVal.noConfusion hq
  | undef =>
      simp only [specClassifyAmended, h]
      rw [classify, if_neg (by simp), if_neg (by simp)]
      all_goals intro q hq
      all_goals exact BetVal.noConfusion hq
  | other =>
      simp only [specClassifyAmended, h]
      rw [classify, if_neg (by simp), if_neg (by simp)]
      all_goals intro q hq
      all_goals exact BetVal.noConfusion hq

end Roulette
namespace Roulette

/-- C3 (amended): every ledger entry's spin result is classified per the
claim — WIN on an exact normalized match; COLOR_ONLY for a direct color bet
matching the winning color; COLOR for a numeric bet sharing the winning
color; LOSE otherwise — where red means membership in the standard red list
and black means any other number different from 0 (within 0..36 this is the
standard 18/18 partition; numeric bets outside 0..36 thus count as black). -/
theorem spec_C3_amended (s : SState) (sid : String) (randoms : List ℚ) (r : ℚ)
    (hd : s.dealerSocket = some sid) (hsp : s.spinning = false) :
    ∃ res, (stepSpin sid randoms r s).lastSpinResult = some res ∧
      res.results =
        s.selections.map (fun p => (p.1, specClassifyAmended p.2.bet res.winningNumber)) := by
  unfold stepSpin
  rw [if_pos hd, if_neg (by simp [hsp])]
  refine ⟨_, rfl, ?_⟩
  show spinResults s.selections _ = _
  unfold spinResults
  exact List.map_congr_left (fun p _ => by rw [classify_eq_specAmended])

/-- Witness for C3 at a concrete reachable state (a red numeric bet and a
direct color bet in the ledger). -/
theorem spec_C3_witness :
    ∃ res, (stepSpin "s1" [1/2] (1/2)
        (runOps cfgA [.join "s1" "111111", .openBets "s1", .join "s2" "222222",
          .select "s2" (.num 3)])).lastSpinResult = some res ∧
      res.results =
        (runOps cfgA [.join "s1" "111111", .openBets "s1", .join "s2" "222222",
          .select "s2" (.num 3)]).selections.map
          (fun p => (p.1, specClassifyAmended p.2.bet res.winningNumber)) :=
  spec_C3_amended _ "s1" [1/2] (1/2) (by decide) (by decide)

/-- Color assignment exactly as the original claim states it: 0 is neither
red nor black and only the remaining wheel numbers 1..36 carry the standard
partition — values outside 0..36 have no color. -/
def claimColor (q : ℚ) : Option SpecColor :=
  if ∃ n ∈ Finset.range 37, q = (n : ℚ) then
    if isRed q = true then some .red else if q = 0 then none else some .black
  else none

/-- Classification per the original claim C3 (colors restricted to the
wheel numbers 0..36). -/
def specClassifyOrig (b : BetVal) (w : ℚ) : Outcome :=
  match normBet b with
  | .num q =>
      if q = w then .WIN
      else if (claimColor q).isSome ∧ claimColor q = claimColor w then .COLOR
      else .LOSE
  | .str t =>
      if t = "red" ∧ claimColor w = some .red then .COLOR_ONLY
      else if t = "black" ∧ claimColor w = some .black then .COLOR_ONLY
      else .LOSE
  | _ => .LOSE

/-- The explicit reachable pre-spin state of the C3 counterexample: the
window was opened and Alice submitted the out-of-range numeric bet 99. -/
def stC3 : SState where
  dealerSocket := some "s1"
  betsOpen := true
  selections := [("s2", ⟨some "Alice", .num 99⟩)]
  weightBySocket := []
  lastSpinResult := none
  spinning := false
  connectedSockets := [("s1", ⟨some "Dealer", some "111111"⟩), ("s2", ⟨some "Alice", some "222222"⟩)]
  socketData := [("s1", ⟨some "Dealer", some "111111"⟩), ("s2", ⟨some "Alice", some "222222"⟩)]
  usersStatus := [("111111", ⟨true, some "s1"⟩), ("222222", ⟨true, some "s2"⟩)]

theorem stC3_reachable :
    runOps cfgA [.join "s1" "111111", .openBets "s1", .join "s2" "222222",
      .select "s2" (.num 99)] = stC3 := by
  decide

theorem stC3_winner : spinWinningNumber stC3.selections stC3.weightBySocket [3/50] 0 = 2 := by
  have hnum : anyNumeric stC3.selections = false := by decide
  have hcol : anyColor stC3.selections = false := by decide
  unfold spinWinningNumber
  rw [if_neg (by simp [hnum, hcol])]
  have : (List.sum [(3 : ℚ)/50] / ((List.length [(3:ℚ)/50] : ℕ) : ℚ)) * 37 = 111/50 := by
    norm_num
  rw [this]
  norm_num [Int.floor_eq_iff]

theorem stC3_results : spinResults stC3.selections 2 = [("s2", Outcome.COLOR)] := by
  decide

/-- C3 counterexample: with the ledger holding the numeric bet 99 (accepted
by the unvalidating select handler) and winning number 2 (black), the code
classifies the bet as COLOR (its `isBlack` treats 99 as black), while the
claim as stated — colors only on 0..36 — classifies it as LOSE. -/
theorem spec_C3_cex :
    (runOps cfgA [.join "s1" "111111", .openBets "s1", .join "s2" "222222",
        .select "s2" (.num 99), .spin "s1" [3/50] 0]).lastSpinResult =
      some ⟨2, [("s2", Outcome.COLOR)]⟩ ∧
    specClassifyOrig (.num 99) 2 = .LOSE ∧
    Outcome.COLOR ≠ Outcome.LOSE := by
  refine ⟨?_, by decide, by decide⟩
  rw [show runOps cfgA [.join "s1" "111111", .openBets "s1", .join "s2" "222222",
      .select "s2" (.num 99), .spin "s1" [3/50] 0] =
    stepSpin "s1" [3/50] 0 (runOps cfgA [.join "s1" "111111", .openBets "s1",
      .join "s2" "222222", .select "s2" (.num 99)]) from rfl]
  rw [stC3_reachable]
  simp only [stepSpin]
  rw [if_pos (by decide), if_neg (by decide)]
  rw [show (⟨spinWinningNumber stC3.selections stC3.weightBySocket [3/50] 0,
      spinResults stC3.selections
        (spinWinningNumber stC3.selections stC3.weightBySocket [3/50] 0)⟩ : SpinResult) =
    ⟨2, [("s2", Outcome.COLOR)]⟩ from by rw [stC3_winner, stC3_results]]

end Roulette
namespace Roulette

/-! ### Claim C8: range of the stored winning number -/

/-- A result of the cdf loop is one of its keys. -/
theorem cdfLoop_mem (total r : ℚ) :
    ∀ (l : List (ℕ × ℚ)) (a : ℚ) (n : ℕ), cdfLoop total r l a = some n → n ∈ l.map Prod.fst := by
  intro l
  induction l with
  | nil =>
      intro a n h
      simp [cdfLoop] at h
  | cons p t ih =>
      intro a n h
      rcases p with ⟨m, c⟩
      rw [cdfLoop] at h
      split at h
      · cases h
        simp
      · simpa using Or.inr (ih _ n h)

/-- The head (with default) of a nonempty list is a member. -/
theorem headD_mem {α : Type} (l : List α) (d : α) (h : l ≠ []) : l.headD d ∈ l := by
  cases l with
  | nil => exact absurd rfl h
  | cons a t => simp

/-- A nonempty list of seeds in `[0,1)` sums to a value in `[0, length)`. -/
theorem seeds_sum_bounds (l : List ℚ) (hne : l ≠ []) (h : ∀ x ∈ l, 0 ≤ x ∧ x < 1) :
    0 ≤ l.sum ∧ l.sum < (l.length : ℚ) := by
  induction l with
  | nil => exact absurd rfl hne
  | cons x t ih =>
      rcases h x (by simp) with ⟨hx0, hx1⟩
      by_cases ht : t = []
      · subst ht
        constructor
        · simpa using hx0
        · simpa using hx1
      · rcases ih ht (fun y hy => h y (by simp [hy])) with ⟨h0, h1⟩
        constructor
        · simpa using add_nonneg hx0 h0
        · simp only [List.sum_cons, List.length_cons]
          push_cast
          linarith

/-- `Math.floor(q * 37)` lands on a wheel number for `q` in `[0,1)`. -/
theorem floor_mul37 (q : ℚ) (h0 : 0 ≤ q) (h1 : q < 1) :
    ∃ n : ℕ, ((⌊q * 37⌋ : ℤ) : ℚ) = (n : ℚ) ∧ n ≤ 36 := by
  have hge : 0 ≤ ⌊q * 37⌋ := Int.floor_nonneg.mpr (by positivity)
  have hlt : ⌊q * 37⌋ < 37 := Int.floor_lt.mpr (by push_cast; nlinarith)
  refine ⟨(⌊q * 37⌋).toNat, ?_, by omega⟩
  rw [show ((⌊q * 37⌋).toNat : ℚ) = (((⌊q * 37⌋).toNat : ℤ) : ℚ) by push_cast; ring]
  rw [Int.toNat_of_nonneg hge]

/-- The average of a nonempty seed list with entries in `[0,1)` is in `[0,1)`. -/
theorem avg_bounds (l : List ℚ) (hne : l ≠ []) (h : ∀ x ∈ l, 0 ≤ x ∧ x < 1) :
    0 ≤ l.sum / (l.length : ℚ) ∧ l.sum / (l.length : ℚ) < 1 := by
  have hlen : 0 < ((l.length : ℕ) : ℚ) := by
    have : 0 < l.length := List.length_pos.mpr hne
    exact_mod_cast this
  rcases seeds_sum_bounds l hne h with ⟨h0, h1⟩
  exact ⟨div_nonneg h0 hlen.le, (div_lt_one hlen).mpr h1⟩

/-- Whatever the branch, the selected winning number is a wheel number
0..36 — provided the seeds are a nonempty list of values in `[0,1)` and the
uniform draw is in `[0,1)`. -/
theorem spinWinningNumber_range (sels : List (String × Sel)) (ws : List (String × ℚ))
    (randoms : List ℚ) (r : ℚ) (hne : randoms ≠ []) (hin : ∀ x ∈ randoms, 0 ≤ x ∧ x < 1)
    (hr0 : 0 ≤ r) (hr1 : r < 1) :
    ∃ n : ℕ, spinWinningNumber sels ws randoms r = (n : ℚ) ∧ n ≤ 36 := by
  rcases avg_bounds randoms hne hin with ⟨ha0, ha1⟩
  have hfloor := floor_mul37 _ ha0 ha1
  have hkeys36 : ∀ n ∈ highKeys sels ws, n ≤ 36 := by
    intro n hn
    have := List.of_mem_filter hn
    have hmem := List.mem_of_mem_filter hn
    have : n < 37 := List.mem_range.mp hmem
    omega
  unfold spinWinningNumber
  by_cases hany : anyNumeric sels = true ∨ anyColor sels = true
  · rw [if_pos hany]
    by_cases hk : highKeys sels ws ≠ []
    · rw [if_pos hk]
      split
      · rename_i n heq
        have hmem := cdfLoop_mem _ _ _ _ _ heq
        simp only [List.map_map] at hmem
        have : n ∈ highKeys sels ws := by simpa using hmem
        exact ⟨n, rfl, hkeys36 n this⟩
      · exact ⟨(highKeys sels ws).headD 0, rfl,
          hkeys36 _ (headD_mem _ 0 hk)⟩
    · rw [if_neg hk]
      by_cases htot : ((List.range 37).map (fun n => numWeight sels ws n)).sum ≤ 0
      · rw [if_pos htot]
        exact hfloor
      · rw [if_neg htot]
        split
        · rename_i i heq
          have hmem := cdfLoop_mem _ _ _ _ _ heq
          simp only [List.map_map] at hmem
          have : i ∈ List.range 37 := by simpa using hmem
          exact ⟨i, rfl, by have := List.mem_range.mp this; omega⟩
        · exact floor_mul37 r hr0 hr1
  · rw [if_neg hany]
    exact hfloor

/-- C8 (amended): for every committing spin, if the supplied seed sequence
is nonempty with every value in `[0,1)` (and the uniform draw is in
`[0,1)`, as `Math.random` guarantees), the stored winning number is an
integer in 0..36.  (As originally stated — for arbitrary seeds — the claim
fails, see the counterexample.) -/
theorem spec_C8_amended (s : SState) (sid : String) (randoms : List ℚ) (r : ℚ)
    (hd : s.dealerSocket = some sid) (hsp : s.spinning = false)
    (hne : randoms ≠ []) (hin : ∀ x ∈ randoms, 0 ≤ x ∧ x < 1)
    (hr0 : 0 ≤ r) (hr1 : r < 1) :
    ∃ (res : SpinResult) (n : ℕ), (stepSpin sid randoms r s).lastSpinResult = some res ∧
      res.winningNumber = (n : ℚ) ∧ n ≤ 36 := by
  unfold stepSpin
  rw [if_pos hd, if_neg (by simp [hsp])]
  obtain ⟨n, hn, hb⟩ :=
    spinWinningNumber_range s.selections s.weightBySocket randoms r hne hin hr0 hr1
  exact ⟨_, n, rfl, hn, hb⟩

/-- Witness for C8 at a concrete reachable state and seed list. -/
theorem spec_C8_witness :
    ∃ (res : SpinResult) (n : ℕ), (stepSpin "s1" [1/2] 0 (runOps cfgA [.join "s1" "111111"])).lastSpinResult =
      some res ∧ res.winningNumber = (n : ℚ) ∧ n ≤ 36 :=
  spec_C8_amended (runOps cfgA [.join "s1" "111111"]) "s1" [1/2] 0 (by decide) (by decide)
    (by simp) (by intro x hx; rw [List.mem_singleton] at hx; subst hx; norm_num)
    le_rfl (by norm_num)

/-- The explicit reachable state of the C8 counterexample (dealer joined). -/
def stC8 : SState where
  dealerSocket := some "s1"
  betsOpen := false
  selections := []
  weightBySocket := []
  lastSpinResult := none
  spinning := false
  connectedSockets := [("s1", ⟨some "Dealer", some "111111"⟩)]
  socketData := [("s1", ⟨some "Dealer", some "111111"⟩)]
  usersStatus := [("111111", ⟨true, some "s1"⟩), ("222222", ⟨false, none⟩)]

theorem stC8_reachable : runOps cfgA [.join "s1" "111111"] = stC8 := by
  decide

theorem stC8_winner : spinWinningNumber stC8.selections stC8.weightBySocket [2] 0 = 74 := by
  have hnum : anyNumeric stC8.selections = false := by decide
  have hcol : anyColor stC8.selections = false := by decide
  unfold spinWinningNumber
  rw [if_neg (by simp [hnum, hcol])]
  have : (List.sum [(2 : ℚ)] / ((List.length [(2:ℚ)] : ℕ) : ℚ)) * 37 = 74 := by norm_num
  rw [this]
  norm_num [Int.floor_eq_iff]

/-- C8 counterexample: a spin with the out-of-range seed list `[2]` and no
bets stores winning number 74, which is not an integer in 0..36. -/
theorem spec_C8_cex :
    (runOps cfgA [.join "s1" "111111", .spin "s1" [2] 0]).lastSpinResult = some ⟨74, []⟩ ∧
    ¬ ∃ n : ℕ, (74 : ℚ) = (n : ℚ) ∧ n ≤ 36 := by
  constructor
  · rw [show runOps cfgA [.join "s1" "111111", .spin "s1" [2] 0] =
      stepSpin "s1" [2] 0 (runOps cfgA [.join "s1" "111111"]) from rfl]
    rw [stC8_reachable]
    simp only [stepSpin]
    rw [if_pos (by decide), if_neg (by decide)]
    rw [show (⟨spinWinningNumber stC8.selections stC8.weightBySocket [2] 0,
        spinResults stC8.selections
          (spinWinningNumber stC8.selections stC8.weightBySocket [2] 0)⟩ : SpinResult) =
      (⟨74, []⟩ : SpinResult) from by rw [stC8_winner]; rfl]
  · rintro ⟨n, he, hn⟩
    have : n = 74 := by exact_mod_cast he.symm
    omega

end Roulette
namespace Roulette

/-! ### Bridging the spin handler's bettor lists to the spec's bettors -/

/-- The numeric bettor cells as a filter of the ledger. -/
theorem bettorsByNumber_eq (sels : List (String × Sel)) (n : ℕ) :
    bettorsByNumber sels n =
      (sels.filter (fun p => decide (normBet p.2.bet = .num (n : ℚ)))).map Prod.fst := by
  induction sels with
  | nil => rfl
  | cons p t ih =>
      simp only [bettorsByNumber, normSels, List.map_cons, List.filterMap_cons,
        List.filter_cons] at ih ⊢
      cases h : normBet p.2.bet with
      | num q =>
          by_cases hq : q = (n : ℚ)
          · subst hq
            simp [h, ih]
          · simp [h, hq, ih]
      | str a => simp [h, ih]
      | nullv => simp [h, ih]
      | undef => simp [h, ih]
      | other => simp [h, ih]

/-- The color bettor lists as a filter of the ledger. -/
theorem bettorsByColor_eq (sels : List (String × Sel)) (c : String) :
    bettorsByColor sels c =
      (sels.filter (fun p => decide (normBet p.2.bet = .str c))).map Prod.fst := by
  induction sels with
  | nil => rfl
  | cons p t ih =>
      simp only [bettorsByColor, normSels, List.map_cons, List.filterMap_cons,
        List.filter_cons] at ih ⊢
      cases h : normBet p.2.bet with
      | num q => simp [h, ih]
      | str a =>
          by_cases ha : a = c
          · subst ha
            simp [h, ih]
          · simp [h, ha, ih]
      | nullv => simp [h, ih]
      | undef => simp [h, ih]
      | other => simp [h, ih]

/-- Filtering by two disjoint predicates and concatenating is a permutation
of filtering by their disjunction. -/
theorem filter_or_perm {α : Type} (p q : α → Bool) (l : List α)
    (hdisj : ∀ x ∈ l, ¬(p x = true ∧ q x = true)) :
    (l.filter p ++ l.filter q).Perm (l.filter (fun x => p x || q x)) := by
  induction l with
  | nil => simp
  | cons a t ih =>
      have iht := ih (fun x hx => hdisj x (by simp [hx]))
      by_cases hp : p a = true
      · have hq : ¬ q a = true := fun hq => hdisj a (by simp) ⟨hp, hq⟩
        simp only [List.filter_cons, Bool.or_eq_true]
        rw [if_pos hp, if_neg hq, if_pos (Or.inl hp)]
        exact iht.cons a
      · by_cases hq : q a = true
        · simp only [List.filter_cons, Bool.or_eq_true]
          rw [if_neg hp, if_pos hq, if_pos (Or.inr hq)]
          exact List.perm_middle.trans (iht.cons a)
        · simp only [List.filter_cons, Bool.or_eq_true]
          rw [if_neg hp, if_neg hq, if_neg (fun h => h.elim hp hq)]
          exact iht

/-- The positive-part sum of a list of rationals is non-negative. -/
theorem posPart_sum_nonneg (l : List ℚ) :
    0 ≤ (l.map (fun x => if 0 < x then x else 0)).sum := by
  apply List.sum_nonneg
  intro x hx
  rcases List.mem_map.mp hx with ⟨y, -, rfl⟩
  split
  · linarith
  · exact le_refl 0

/-- The positive-part sum vanishes exactly when every entry is ≤ 0. -/
theorem posPart_sum_nonpos_iff (l : List ℚ) :
    (l.map (fun x => if 0 < x then x else 0)).sum ≤ 0 ↔ ∀ x ∈ l, x ≤ 0 := by
  induction l with
  | nil => simp
  | cons a t ih =>
      simp only [List.map_cons, List.sum_cons, List.mem_cons]
      have hta := posPart_sum_nonneg t
      by_cases hpa : 0 < a
      · rw [if_pos hpa]
        constructor
        · intro h
          linarith
        · intro h
          linarith [h a (Or.inl rfl)]
      · rw [if_neg hpa]
        constructor
        · intro h
          intro x hx
          rcases hx with rfl | hx
          · exact not_lt.mp hpa
          · exact ih.mp (by linarith) x hx
        · intro h
          have := ih.mpr (fun x hx => h x (Or.inr hx))
          linarith
/-- Summing a function over the positively-valued entries equals the
positive-part sum. -/
theorem filter_pos_sum {α : Type} (f : α → ℚ) (l : List α) :
    ((l.filter (fun x => decide (0 < f x))).map f).sum =
      (l.map (fun x => if 0 < f x then f x else 0)).sum := by
  induction l with
  | nil => rfl
  | cons a t ih =>
      by_cases h : 0 < f a
      · simp [List.filter_cons, h, ih]
      · simp [List.filter_cons, h, ih]

end Roulette
namespace Roulette

/-! ### Claim C2: the normal weighted draw -/

/-- The ledger entries covering a number, per the spec's wording. -/
def coverers (sels : List (String × Sel)) (n : ℕ) : List (String × Sel) :=
  sels.filter (fun p => decide (covers (normBet p.2.bet) n))

/-- The normal-branch per-number weight per claim C2's wording: weight 1 if
no bettor covers the number; exactly 0 when every covering bettor has
weight ≤ 0; otherwise 1 plus the sum of the covering bettors' strictly
positive weights. -/
def specNormalWeight (sels : List (String × Sel)) (ws : List (String × ℚ)) (n : ℕ) : ℚ :=
  if coverers sels n = [] then 1
  else if ∀ p ∈ coverers sels n, wOf ws p.1 ≤ 0 then 0
  else 1 + (((coverers sels n).filter (fun p => decide (0 < wOf ws p.1))).map
      (fun p => wOf ws p.1)).sum

/-- A red wheel number is not black. -/
theorem isBlack_of_isRed {q : ℚ} (h : isRed q = true) : isBlack q = false := by
  unfold isBlack
  simp [h]

theorem covers_iff_red {n : ℕ} (hn : n ≤ 36) (hr : isRed (n : ℚ) = true) (b : BetVal) :
    covers b n ↔ (b = .num (n : ℚ) ∨ b = .str "red") := by
  unfold covers
  have hb : isBlack (n : ℚ) = false := isBlack_of_isRed hr
  simp [hn, hr, hb]

theorem covers_iff_black {n : ℕ} (hn : n ≤ 36) (hr : isRed (n : ℚ) = false)
    (hb : isBlack (n : ℚ) = true) (b : BetVal) :
    covers b n ↔ (b = .num (n : ℚ) ∨ b = .str "black") := by
  unfold covers
  simp [hn, hr, hb]

theorem covers_iff_zero {n : ℕ} (hn : n ≤ 36) (hr : isRed (n : ℚ) = false)
    (hb : isBlack (n : ℚ) = false) (b : BetVal) :
    covers b n ↔ b = .num (n : ℚ) := by
  unfold covers
  simp [hn, hr, hb]

/-- For each wheel number, the handler's bettor lists (numeric cell plus
matching color list) are a permutation of the spec-side coverers'
connection ids. -/
theorem coverers_perm (sels : List (String × Sel)) (n : ℕ) (hn : n < 37) :
    (bettorsByNumber sels n ++
      (if isRed (n : ℚ) = true then bettorsByColor sels "red"
       else if isBlack (n : ℚ) = true then bettorsByColor sels "black"
       else [])).Perm ((coverers sels n).map Prod.fst) := by
  have hn' : n ≤ 36 := by omega
  by_cases hr : isRed (n : ℚ) = true
  · rw [if_pos hr, bettorsByNumber_eq, bettorsByColor_eq, ← List.map_append]
    refine List.Perm.map Prod.fst ?_
    have hcov : (fun p : String × Sel => decide (covers (normBet p.2.bet) n)) =
        fun p => decide (normBet p.2.bet = .num (n : ℚ)) ||
          decide (normBet p.2.bet = .str "red") := by
      funext p
      rw [← Bool.decide_or, decide_eq_decide]
      exact covers_iff_red hn' hr _
    unfold coverers
    rw [hcov]
    refine filter_or_perm _ _ sels ?_
    intro x hx
    rintro ⟨h1, h2⟩
    rw [decide_eq_true_eq] at h1 h2
    rw [h1] at h2
    exact BetVal.noConfusion h2
  · by_cases hb : isBlack (n : ℚ) = true
    · rw [if_neg hr, if_pos hb, bettorsByNumber_eq, bettorsByColor_eq, ← List.map_append]
      refine List.Perm.map Prod.fst ?_
      have hcov : (fun p : String × Sel => decide (covers (normBet p.2.bet) n)) =
          fun p => decide (normBet p.2.bet = .num (n : ℚ)) ||
            decide (normBet p.2.bet = .str "black") := by
        funext p
        rw [← Bool.decide_or, decide_eq_decide]
        exact covers_iff_black hn' (Bool.eq_false_iff.mpr hr) hb _
      unfold coverers
      rw [hcov]
      refine filter_or_perm _ _ sels ?_
      intro x hx
      rintro ⟨h1, h2⟩
      rw [decide_eq_true_eq] at h1 h2
      rw [h1] at h2
      exact BetVal.noConfusion h2
    · rw [if_neg hr, if_neg hb, List.append_nil, bettorsByNumber_eq]
      have hcov : (fun p : String × Sel => decide (covers (normBet p.2.bet) n)) =
          fun p => decide (normBet p.2.bet = .num (n : ℚ)) := by
        funext p
        rw [decide_eq_decide]
        exact covers_iff_zero hn' (Bool.eq_false_iff.mpr hr) (Bool.eq_false_iff.mpr hb) _
      unfold coverers
      rw [hcov]

end Roulette
namespace Roulette

/-- The handler's per-number weight agrees with the claim's description. -/
theorem numWeight_eq_spec (sels : List (String × Sel)) (ws : List (String × ℚ)) (n : ℕ)
    (hn : n < 37) : numWeight sels ws n = specNormalWeight sels ws n := by
  have hperm := coverers_perm sels n hn
  have hsum : ((bettorsByNumber sels n ++
      (if isRed (n : ℚ) = true then bettorsByColor sels "red"
       else if isBlack (n : ℚ) = true then bettorsByColor sels "black" else [])).map
        (fun sid => if 0 < wOf ws sid then wOf ws sid else 0)).sum =
      ((coverers sels n).map (fun p => if 0 < wOf ws p.1 then wOf ws p.1 else 0)).sum := by
    rw [(hperm.map (fun sid => if 0 < wOf ws sid then wOf ws sid else 0)).sum_eq,
      List.map_map]
    rfl
  have hnonpos : (((bettorsByNumber sels n ++
      (if isRed (n : ℚ) = true then bettorsByColor sels "red"
       else if isBlack (n : ℚ) = true then bettorsByColor sels "black" else [])).map
        (fun sid => if 0 < wOf ws sid then wOf ws sid else 0)).sum ≤ 0) ↔
      ∀ p ∈ coverers sels n, wOf ws p.1 ≤ 0 := by
    rw [hsum]
    rw [show (coverers sels n).map (fun p => if 0 < wOf ws p.1 then wOf ws p.1 else 0) =
      ((coverers sels n).map (fun p => wOf ws p.1)).map (fun x => if 0 < x then x else 0) by
        rw [List.map_map]; rfl]
    rw [posPart_sum_nonpos_iff]
    constructor
    · intro h p hp
      exact h _ (List.mem_map_of_mem _ hp)
    · intro h x hx
      rcases List.mem_map.mp hx with ⟨p, hp, rfl⟩
      exact h p hp
  have hemp : (bettorsByNumber sels n ++
      (if isRed (n : ℚ) = true then bettorsByColor sels "red"
       else if isBlack (n : ℚ) = true then bettorsByColor sels "black" else [])) = [] ↔
      coverers sels n = [] := by
    rw [← List.length_eq_zero, ← List.length_eq_zero (l := coverers sels n)]
    rw [hperm.length_eq, List.length_map]
  simp only [numWeight, specNormalWeight]
  by_cases hc : coverers sels n = []
  · obtain ⟨ha, hb⟩ := List.append_eq_nil.mp (hemp.mpr hc)
    rw [if_pos (by simp [ha, hb]), if_pos hc]
  · have hasAny : ¬ (bettorsByNumber sels n).isEmpty = true ∨
        ¬ (if isRed (n : ℚ) = true then bettorsByColor sels "red"
           else if isBlack (n : ℚ) = true then bettorsByColor sels "black"
           else []).isEmpty = true := by
      by_contra hno
      push_neg at hno
      apply hc
      apply hemp.mp
      rw [List.append_eq_nil]
      exact ⟨List.isEmpty_iff.mp hno.1, List.isEmpty_iff.mp hno.2⟩
    rw [if_neg (fun hno => hno hasAny), if_neg hc]
    by_cases hz : ∀ p ∈ coverers sels n, wOf ws p.1 ≤ 0
    · rw [if_pos (hnonpos.mpr hz), if_pos hz]
    · rw [if_neg (fun h => hz (hnonpos.mp h)), if_neg hz]
      rw [filter_pos_sum, hsum]

end Roulette
namespace Roulette

/-- The high-weight numeric cell count as a ledger filter. -/
theorem highNum_len (sels : List (String × Sel)) (ws : List (String × ℚ)) (n : ℕ) :
    ((bettorsByNumber sels n).filter (fun sid => decide (2 ≤ wOf ws sid))).length =
      (sels.filter (fun p => decide (2 ≤ wOf ws p.1) &&
        decide (normBet p.2.bet = .num (n : ℚ)))).length := by
  rw [bettorsByNumber_eq, List.filter_map, List.length_map, List.filter_filter]
  rfl

/-- The high-weight color count as a ledger filter. -/
theorem highColor_len (sels : List (String × Sel)) (ws : List (String × ℚ)) (c : String) :
    ((bettorsByColor sels c).filter (fun sid => decide (2 ≤ wOf ws sid))).length =
      (sels.filter (fun p => decide (2 ≤ wOf ws p.1) &&
        decide (normBet p.2.bet = .str c))).length := by
  rw [bettorsByColor_eq, List.filter_map, List.length_map, List.filter_filter]
  rfl

/-- The handler's `highWeightNumbers[n]` agrees with the spec-side count of
distinct high-weight bettors covering `n`. -/
theorem highCount_eq_spec (sels : List (String × Sel)) (ws : List (String × ℚ)) (n : ℕ)
    (hn : n < 37) : highCount sels ws n = specHighCount sels ws n := by
  have hn' : n ≤ 36 := by omega
  unfold highCount specHighCount
  rw [List.countP_eq_length_filter, highNum_len, highColor_len, highColor_len]
  by_cases hr : isRed (n : ℚ) = true
  · have hb : isBlack (n : ℚ) = false := isBlack_of_isRed hr
    rw [if_pos hr, if_neg (by simp [hb]), add_zero]
    have hcov : (fun p : String × Sel =>
        decide (covers (normBet p.2.bet) n ∧ 2 ≤ wOf ws p.1)) = fun p =>
          (decide (2 ≤ wOf ws p.1) && decide (normBet p.2.bet = .num (n : ℚ))) ||
          (decide (2 ≤ wOf ws p.1) && decide (normBet p.2.bet = .str "red")) := by
      funext p
      rw [← Bool.decide_and, ← Bool.decide_and, ← Bool.decide_or, decide_eq_decide]
      rw [covers_iff_red hn' hr]
      tauto
    rw [hcov]
    rw [← (filter_or_perm _ _ sels ?_).length_eq, List.length_append]
    intro x hx
    rintro ⟨h1, h2⟩
    simp only [Bool.and_eq_true, decide_eq_true_eq] at h1 h2
    rw [h1.2] at h2
    exact BetVal.noConfusion h2.2
  · by_cases hb : isBlack (n : ℚ) = true
    · rw [if_neg hr, if_pos hb, add_zero]
      have hcov : (fun p : String × Sel =>
          decide (covers (normBet p.2.bet) n ∧ 2 ≤ wOf ws p.1)) = fun p =>
            (decide (2 ≤ wOf ws p.1) && decide (normBet p.2.bet = .num (n : ℚ))) ||
            (decide (2 ≤ wOf ws p.1) && decide (normBet p.2.bet = .str "black")) := by
        funext p
        rw [← Bool.decide_and, ← Bool.decide_and, ← Bool.decide_or, decide_eq_decide]
        rw [covers_iff_black hn' (Bool.eq_false_iff.mpr hr) hb]
        tauto
      rw [hcov]
      rw [← (filter_or_perm _ _ sels ?_).length_eq, List.length_append]
      intro x hx
      rintro ⟨h1, h2⟩
      simp only [Bool.and_eq_true, decide_eq_true_eq] at h1 h2
      rw [h1.2] at h2
      exact BetVal.noConfusion h2.2
    · rw [if_neg hr, if_neg hb, add_zero, add_zero]
      have hcov : (fun p : String × Sel =>
          decide (covers (normBet p.2.bet) n ∧ 2 ≤ wOf ws p.1)) = fun p =>
            decide (2 ≤ wOf ws p.1) && decide (normBet p.2.bet = .num (n : ℚ)) := by
        funext p
        rw [← Bool.decide_and, decide_eq_decide]
        rw [covers_iff_zero hn' (Bool.eq_false_iff.mpr hr) (Bool.eq_false_iff.mpr hb)]
        tauto
      rw [hcov]

/-- A ledger with a valid bettor makes the handler take its weighted branch. -/
theorem valid_bettor_any (sels : List (String × Sel))
    (h : ∃ p ∈ sels, isValidBet (normBet p.2.bet)) :
    anyNumeric sels = true ∨ anyColor sels = true := by
  obtain ⟨p, hp, hv⟩ := h
  rcases hv with hv | hv | ⟨n, hn, hv⟩
  · right
    unfold anyColor
    rw [List.any_eq_true]
    exact ⟨(p.1, normBet p.2.bet), List.mem_map_of_mem _ hp, by simp [hv]⟩
  · right
    unfold anyColor
    rw [List.any_eq_true]
    exact ⟨(p.1, normBet p.2.bet), List.mem_map_of_mem _ hp, by simp [hv]⟩
  · left
    unfold anyNumeric
    rw [List.any_eq_true]
    refine ⟨(p.1, normBet p.2.bet), List.mem_map_of_mem _ hp, ?_⟩
    have h36 : (n : ℚ) ≤ 36 := by
      have : n ≤ 36 := by
        have := Finset.mem_range.mp hn
        omega
      exact_mod_cast this
    simp only [hv, decide_eq_true_eq]
    exact ⟨by positivity, h36⟩

/-- With no high-weight valid bettor, `highWeightNumbers` is empty. -/
theorem highKeys_nil_of_low (sels : List (String × Sel)) (ws : List (String × ℚ))
    (hlow : ∀ p ∈ sels, isValidBet (normBet p.2.bet) → wOf ws p.1 < 2) :
    highKeys sels ws = [] := by
  unfold highKeys
  rw [List.filter_eq_nil_iff]
  intro n hn
  simp only [decide_eq_true_eq, ne_eq, not_not]
  rw [highCount_eq_spec _ _ _ (List.mem_range.mp hn)]
  unfold specHighCount
  rw [List.countP_eq_zero]
  intro p hp
  simp only [decide_eq_true_eq, not_and]
  intro hcov
  have := hlow p hp (covers_valid hcov)
  intro h2
  linarith

/-- The cdf loop yields a result whenever the draw is strictly above the
running accumulator and at most the final accumulator. -/
theorem cdfLoop_isSome (t r : ℚ) :
    ∀ (l : List (ℕ × ℚ)) (a : ℚ), a < r → r ≤ a + (l.map Prod.snd).sum / t →
      (cdfLoop t r l a).isSome = true := by
  intro l
  induction l with
  | nil =>
      intro a ha hr
      exfalso
      simp only [List.map_nil, List.sum_nil, zero_div, add_zero] at hr
      linarith
  | cons p rest ih =>
      intro a ha hr
      rcases p with ⟨m, c⟩
      rw [cdfLoop]
      split
      · rfl
      · rename_i hnot
        refine ih (a + c / t) (not_le.mp hnot) ?_
        simp only [List.map_cons, List.sum_cons] at hr
        rw [← div_add_div_same] at hr
        linarith

/-- Wrapper allowing the draw to equal the starting accumulator when the
list is nonempty with non-negative weights. -/
theorem cdfLoop_isSome_of (t r : ℚ) (l : List (ℕ × ℚ)) (hne : l ≠ [])
    (hr : r ≤ (l.map Prod.snd).sum / t) : (cdfLoop t r l 0).isSome = true := by
  cases l with
  | nil => exact absurd rfl hne
  | cons p rest =>
      rcases p with ⟨m, c⟩
      rw [cdfLoop]
      split
      · rfl
      · rename_i hnot
        refine cdfLoop_isSome t r rest (0 + c / t) (not_le.mp hnot) ?_
        simp only [List.map_cons, List.sum_cons] at hr
        rw [← div_add_div_same] at hr
        linarith

/-- The 37 normal-branch weights are non-negative. -/
theorem specNormalWeight_nonneg (sels : List (String × Sel)) (ws : List (String × ℚ))
    (n : ℕ) : 0 ≤ specNormalWeight sels ws n := by
  unfold specNormalWeight
  split
  · norm_num
  · split
    · exact le_refl 0
    · have : 0 ≤ (((coverers sels n).filter
          (fun p => decide (0 < wOf ws p.1))).map (fun p => wOf ws p.1)).sum := by
        apply List.sum_nonneg
        intro x hx
        rcases List.mem_map.mp hx with ⟨q, hq, rfl⟩
        have := (List.mem_filter.mp hq).2
        rw [decide_eq_true_eq] at this
        linarith
      linarith

end Roulette
namespace Roulette

/-- C2: when at least one bet exists (a bettor with a valid normalized bet)
and no bettor has weight ≥ 2, the spin draws the winning number by a
cumulative-distribution draw against the single uniform random value over
the 37 per-number weights described by the claim (`specNormalWeight`), and
falls back to `floor(avg * 37)` over the averaged client randoms when the
total weight is ≤ 0. -/
theorem spec_C2 (s : SState) (sid : String) (randoms : List ℚ) (r : ℚ)
    (hd : s.dealerSocket = some sid) (hsp : s.spinning = false)
    (hbets : ∃ p ∈ s.selections, isValidBet (normBet p.2.bet))
    (hlow : ∀ p ∈ s.selections, isValidBet (normBet p.2.bet) →
      wOf s.weightBySocket p.1 < 2)
    (hr0 : 0 ≤ r) (hr1 : r < 1) :
    ∃ res : SpinResult, (stepSpin sid randoms r s).lastSpinResult = some res ∧
      ((((List.range 37).map
          (fun n => specNormalWeight s.selections s.weightBySocket n)).sum ≤ 0 →
        res.winningNumber = ((⌊randoms.sum / (randoms.length : ℚ) * 37⌋ : ℤ) : ℚ)) ∧
      (0 < ((List.range 37).map
          (fun n => specNormalWeight s.selections s.weightBySocket n)).sum →
        ∃ n : ℕ,
          cdfLoop
            (((List.range 37).map
              (fun n => specNormalWeight s.selections s.weightBySocket n)).sum) r
            ((List.range 37).map
              (fun n => (n, specNormalWeight s.selections s.weightBySocket n))) 0 = some n ∧
          res.winningNumber = (n : ℚ))) := by
  have hk := highKeys_nil_of_low s.selections s.weightBySocket hlow
  have hany := valid_bettor_any s.selections hbets
  have htotEq : ((List.range 37).map (fun n => numWeight s.selections s.weightBySocket n)).sum
      = ((List.range 37).map (fun n => specNormalWeight s.selections s.weightBySocket n)).sum :=
    congrArg List.sum (List.map_congr_left (fun n hn =>
      numWeight_eq_spec _ _ n (List.mem_range.mp hn)))
  have hpairsEq :
      ((List.range 37).map (fun n => (n, numWeight s.selections s.weightBySocket n)))
      = ((List.range 37).map (fun n => (n, specNormalWeight s.selections s.weightBySocket n))) :=
    List.map_congr_left (fun n hn => by
      rw [numWeight_eq_spec _ _ n (List.mem_range.mp hn)])
  have hbr : spinWinningNumber s.selections s.weightBySocket randoms r =
      (if ((List.range 37).map
          (fun n => specNormalWeight s.selections s.weightBySocket n)).sum ≤ 0
       then ((⌊randoms.sum / (randoms.length : ℚ) * 37⌋ : ℤ) : ℚ)
       else
        match
          cdfLoop
            (((List.range 37).map
              (fun n => specNormalWeight s.selections s.weightBySocket n)).sum) r
            ((List.range 37).map
              (fun n => (n, specNormalWeight s.selections s.weightBySocket n))) 0 with
        | some i => (i : ℚ)
        | none => ((⌊r * 37⌋ : ℤ) : ℚ)) := by
    unfold spinWinningNumber
    rw [if_pos hany, if_neg (fun hne => hne hk), htotEq, hpairsEq]
  unfold stepSpin
  rw [if_pos hd, if_neg (by simp [hsp])]
  refine ⟨_, rfl, ?_, ?_⟩
  · intro htot
    show spinWinningNumber s.selections s.weightBySocket randoms r = _
    rw [hbr, if_pos htot]
  · intro htot
    have hsnd : ((List.range 37).map
        (fun n => (n, specNormalWeight s.selections s.weightBySocket n))).map Prod.snd =
        (List.range 37).map (fun n => specNormalWeight s.selections s.weightBySocket n) := by
      rw [List.map_map]
      rfl
    have hsome := cdfLoop_isSome_of
      (((List.range 37).map (fun n => specNormalWeight s.selections s.weightBySocket n)).sum) r
      ((List.range 37).map (fun n => (n, specNormalWeight s.selections s.weightBySocket n)))
      (by simp [List.range_succ])
      (by
        rw [hsnd, div_self (ne_of_gt htot)]
        linarith)
    obtain ⟨i, hi⟩ := Option.isSome_iff_exists.mp hsome
    refine ⟨i, hi, ?_⟩
    show spinWinningNumber s.selections s.weightBySocket randoms r = _
    rw [hbr, if_neg (not_le.mpr htot), hi]

end Roulette
namespace Roulette

/-- Witness for C2 at a concrete reachable state (Alice bets 5, everyone at
default weight 1). -/
theorem spec_C2_witness :
    ∃ res : SpinResult,
      (stepSpin "s1" [1/2] (1/2)
        (runOps cfgA [.join "s1" "111111", .openBets "s1", .join "s2" "222222",
          .select "s2" (.num 5)])).lastSpinResult = some res ∧
      ((((List.range 37).map (fun n => specNormalWeight
          (runOps cfgA [.join "s1" "111111", .openBets "s1", .join "s2" "222222",
            .select "s2" (.num 5)]).selections
          (runOps cfgA [.join "s1" "111111", .openBets "s1", .join "s2" "222222",
            .select "s2" (.num 5)]).weightBySocket n)).sum ≤ 0 →
        res.winningNumber = ((⌊List.sum [(1:ℚ)/2] / ((List.length [(1:ℚ)/2] : ℕ) : ℚ) * 37⌋ : ℤ) : ℚ)) ∧
      (0 < ((List.range 37).map (fun n => specNormalWeight
          (runOps cfgA [.join "s1" "111111", .openBets "s1", .join "s2" "222222",
            .select "s2" (.num 5)]).selections
          (runOps cfgA [.join "s1" "111111", .openBets "s1", .join "s2" "222222",
            .select "s2" (.num 5)]).weightBySocket n)).sum →
        ∃ n : ℕ,
          cdfLoop
            (((List.range 37).map (fun n => specNormalWeight
              (runOps cfgA [.join "s1" "111111", .openBets "s1", .join "s2" "222222",
                .select "s2" (.num 5)]).selections
              (runOps cfgA [.join "s1" "111111", .openBets "s1", .join "s2" "222222",
                .select "s2" (.num 5)]).weightBySocket n)).sum) (1/2)
            ((List.range 37).map (fun n => (n, specNormalWeight
              (runOps cfgA [.join "s1" "111111", .openBets "s1", .join "s2" "222222",
                .select "s2" (.num 5)]).selections
              (runOps cfgA [.join "s1" "111111", .openBets "s1", .join "s2" "222222",
                .select "s2" (.num 5)]).weightBySocket n))) 0 = some n ∧
          res.winningNumber = (n : ℚ))) :=
  spec_C2 (runOps cfgA [.join "s1" "111111", .openBets "s1", .join "s2" "222222",
      .select "s2" (.num 5)]) "s1" [1/2] (1/2) (by decide) (by decide)
    ⟨("s2", ⟨some "Alice", .num 5⟩), by decide, by decide⟩
    (by decide) (by norm_num) (by norm_num)

end Roulette
namespace Roulette

/-! ### Claim C1: the high-weight override draw -/

/-- The keys of a count function below a bound, in ascending order (the
enumeration order of integer-like JS object keys). -/
def keysOf (f : ℕ → ℕ) (N : ℕ) : List ℕ := (List.range N).filter (fun n => f n ≠ 0)

/-- The `(key, count)` pair list handed to the cdf loop. -/
def pairsOf (f : ℕ → ℕ) (N : ℕ) : List (ℕ × ℚ) := (keysOf f N).map (fun n => (n, (f n : ℚ)))

theorem keysOf_succ (f : ℕ → ℕ) (N : ℕ) :
    keysOf f (N + 1) = keysOf f N ++ (if f N ≠ 0 then [N] else []) := by
  unfold keysOf
  rw [List.range_succ, List.filter_append]
  by_cases h : f N ≠ 0 <;> simp [h]

theorem pairsOf_succ (f : ℕ → ℕ) (N : ℕ) :
    pairsOf f (N + 1) = pairsOf f N ++ (if f N ≠ 0 then [(N, (f N : ℚ))] else []) := by
  unfold pairsOf
  rw [keysOf_succ, List.map_append]
  by_cases h : f N ≠ 0 <;> simp [h]

/-- The counts in the pair list sum to the plain sum of the counts (absent
keys contribute zero). -/
theorem psum_pairsOf (f : ℕ → ℕ) :
    ∀ N : ℕ, ((pairsOf f N).map Prod.snd).sum = ∑ m ∈ Finset.range N, (f m : ℚ) := by
  intro N
  induction N with
  | zero => rfl
  | succ N ih =>
      rw [pairsOf_succ, List.map_append, List.sum_append, ih, Finset.sum_range_succ]
      by_cases h : f N ≠ 0
      · simp [h]
      · simp only [ne_eq, not_not] at h
        simp [h]

/-- The Nat-valued total the handler computes over the keys equals the sum
of the counts over the whole range. -/
theorem keysOf_total (f : ℕ → ℕ) :
    ∀ N : ℕ, ((keysOf f N).map f).sum = ∑ m ∈ Finset.range N, f m := by
  intro N
  induction N with
  | zero => rfl
  | succ N ih =>
      rw [keysOf_succ, List.map_append, List.sum_append, ih, Finset.sum_range_succ]
      by_cases h : f N ≠ 0
      · simp [h]
      · simp only [ne_eq, not_not] at h
        simp [h]

/-- Splitting the cdf loop across an append. -/
theorem cdfLoop_append (t r : ℚ) (l₁ l₂ : List (ℕ × ℚ)) :
    ∀ a : ℚ, cdfLoop t r (l₁ ++ l₂) a =
      (match cdfLoop t r l₁ a with
       | some n => some n
       | none => cdfLoop t r l₂ (a + (l₁.map Prod.snd).sum / t)) := by
  induction l₁ with
  | nil =>
      intro a
      simp [cdfLoop]
  | cons p rest ih =>
      intro a
      rcases p with ⟨m, c⟩
      rw [List.cons_append, cdfLoop, cdfLoop]
      by_cases h : r ≤ a + c / t
      · rw [if_pos h, if_pos h]
      · rw [if_neg h, if_neg h, ih]
        have hacc : a + c / t + (rest.map Prod.snd).sum / t =
            a + ((c :: rest.map Prod.snd).sum) / t := by
          rw [List.sum_cons, ← div_add_div_same, add_assoc]
        simp only [List.map_cons]
        rw [hacc]

/-- With non-negative weights and a positive total, the cdf loop misses
exactly when the draw exceeds the final accumulator. -/
theorem cdfLoop_eq_none_iff (t r : ℚ) (ht : 0 < t) :
    ∀ (l : List (ℕ × ℚ)), (∀ p ∈ l, 0 ≤ p.2) → ∀ (a : ℚ), a < r →
      (cdfLoop t r l a = none ↔ a + (l.map Prod.snd).sum / t < r) := by
  intro l
  induction l with
  | nil =>
      intro hnn a ha
      simp [cdfLoop, ha]
  | cons p rest ih =>
      intro hnn a ha
      rcases p with ⟨m, c⟩
      rw [cdfLoop]
      by_cases h : r ≤ a + c / t
      · rw [if_pos h]
        simp only [List.map_cons, List.sum_cons]
        constructor
        · intro hfalse
          exact absurd hfalse (by simp)
        · intro hlt
          exfalso
          rw [← div_add_div_same, ← add_assoc] at hlt
          have hs : 0 ≤ (rest.map Prod.snd).sum := by
            apply List.sum_nonneg
            intro x hx
            rcases List.mem_map.mp hx with ⟨q, hq, rfl⟩
            exact hnn q (by simp [hq])
          have : 0 ≤ (rest.map Prod.snd).sum / t := div_nonneg hs ht.le
          linarith
      · rw [if_neg h]
        rw [ih (fun q hq => hnn q (by simp [hq])) (a + c / t) (not_le.mp h)]
        simp only [List.map_cons, List.sum_cons]
        rw [← div_add_div_same, ← add_assoc]

end Roulette
namespace Roulette

/-- Characterization of the cdf draw over the key/count pairs of a count
function: for a strictly positive draw, the loop lands on `n` exactly when
`n` is a key and the draw falls in the interval of cumulative count shares
attached to `n`. -/
theorem cdfLoop_pairsOf_iff (f : ℕ → ℕ) (t r : ℚ) (ht : 0 < t) (h0 : 0 < r) :
    ∀ (N n : ℕ),
      (cdfLoop t r (pairsOf f N) 0 = some n ↔
        n < N ∧ f n ≠ 0 ∧ (∑ m ∈ Finset.range n, (f m : ℚ)) / t < r ∧
          r ≤ (∑ m ∈ Finset.range (n + 1), (f m : ℚ)) / t) := by
  intro N
  induction N with
  | zero =>
      intro n
      simp [pairsOf, keysOf, cdfLoop]
  | succ N ih =>
      intro n
      have hnnP : ∀ p ∈ pairsOf f N, 0 ≤ p.2 := by
        intro p hp
        rcases List.mem_map.mp hp with ⟨k, hk, rfl⟩
        positivity
      rw [pairsOf_succ, cdfLoop_append]
      cases hres : cdfLoop t r (pairsOf f N) 0 with
      | some k =>
          have hk := (ih k).mp hres
          have hk1 : k < N := hk.1
          simp only []
          constructor
          · intro hkn
            have hkn' : k = n := by simpa using hkn
            subst hkn'
            exact ⟨by omega, hk.2.1, hk.2.2.1, hk.2.2.2⟩
          · rintro ⟨hn1, hn2, hn3, hn4⟩
            by_cases hnN : n < N
            · have := (ih n).mpr ⟨hnN, hn2, hn3, hn4⟩
              rw [hres] at this
              simpa using this
            · have hnN' : n = N := by omega
              exfalso
              rw [hnN'] at hn3
              have hsub : Finset.range (k + 1) ⊆ Finset.range N :=
                Finset.range_subset.mpr (by omega)
              have hmono : (∑ m ∈ Finset.range (k + 1), (f m : ℚ)) ≤
                  ∑ m ∈ Finset.range N, (f m : ℚ) :=
                Finset.sum_le_sum_of_subset_of_nonneg hsub (fun m _ _ => by positivity)
              have hrle : r ≤ (∑ m ∈ Finset.range N, (f m : ℚ)) / t :=
                hk.2.2.2.trans ((div_le_div_iff_of_pos_right ht).mpr hmono)
              linarith
      | none =>
          have hlt : (∑ m ∈ Finset.range N, (f m : ℚ)) / t < r := by
            have := (cdfLoop_eq_none_iff t r ht (pairsOf f N) hnnP 0 h0).mp hres
            rw [psum_pairsOf] at this
            linarith
          simp only []
          rw [psum_pairsOf]
          by_cases hfN : f N ≠ 0
          · rw [if_pos hfN, cdfLoop]
            by_cases hcond : r ≤ 0 + (∑ m ∈ Finset.range N, (f m : ℚ)) / t + (f N : ℚ) / t
            · rw [if_pos hcond]
              constructor
              · intro hNn
                have hNn' : N = n := by simpa using hNn
                refine ⟨by omega, ?_, ?_, ?_⟩
                · rw [← hNn']
                  exact hfN
                · rw [← hNn']
                  exact hlt
                · rw [← hNn', Finset.sum_range_succ, ← div_add_div_same]
                  simpa using hcond
              · rintro ⟨hn1, hn2, hn3, hn4⟩
                by_cases hnN : n < N
                · have := (ih n).mpr ⟨hnN, hn2, hn3, hn4⟩
                  rw [hres] at this
                  exact absurd this (by simp)
                · have hnN' : n = N := by omega
                  rw [hnN']
            · rw [if_neg hcond]
              constructor
              · intro hfalse
                simp [cdfLoop] at hfalse
              · rintro ⟨hn1, hn2, hn3, hn4⟩
                by_cases hnN : n < N
                · have := (ih n).mpr ⟨hnN, hn2, hn3, hn4⟩
                  rw [hres] at this
                  exact absurd this (by simp)
                · have hnN' : n = N := by omega
                  exfalso
                  rw [hnN', Finset.sum_range_succ, ← div_add_div_same] at hn4
                  apply hcond
                  rw [zero_add]
                  exact hn4
          · rw [if_neg hfN]
            constructor
            · intro hfalse
              simp [cdfLoop] at hfalse
            · rintro ⟨hn1, hn2, hn3, hn4⟩
              by_cases hnN : n < N
              · have := (ih n).mpr ⟨hnN, hn2, hn3, hn4⟩
                rw [hres] at this
                exact absurd this (by simp)
              · have hnN' : n = N := by omega
                rw [hnN'] at hn2
                exact absurd hn2 hfN

end Roulette
namespace Roulette

/-- No bettor covers anything beyond the wheel. -/
theorem specHighCount_eq_zero (sels : List (String × Sel)) (ws : List (String × ℚ))
    {n : ℕ} (hn : 36 < n) : specHighCount sels ws n = 0 := by
  unfold specHighCount
  rw [List.countP_eq_zero]
  intro p hp
  simp only [decide_eq_true_eq, not_and]
  intro hcov
  exact absurd hcov.1 (by omega)

/-- A valid high-weight bettor covers some wheel number. -/
theorem exists_covered_of_high (sels : List (String × Sel)) (ws : List (String × ℚ))
    (h : ∃ p ∈ sels, isValidBet (normBet p.2.bet) ∧ 2 ≤ wOf ws p.1) :
    ∃ n : ℕ, n < 37 ∧ 0 < specHighCount sels ws n := by
  obtain ⟨p, hp, hv, hw⟩ := h
  have mk : ∀ n : ℕ, covers (normBet p.2.bet) n →
      0 < specHighCount sels ws n := by
    intro n hcov
    unfold specHighCount
    rw [List.countP_pos]
    exact ⟨p, hp, by simp [hcov, hw]⟩
  rcases hv with hv | hv | ⟨n, hn, hv⟩
  · exact ⟨1, by omega, mk 1 (by rw [hv]; decide)⟩
  · exact ⟨2, by omega, mk 2 (by rw [hv]; decide)⟩
  · refine ⟨n, Finset.mem_range.mp hn, mk n ?_⟩
    rw [hv]
    have h36 : n ≤ 36 := by
      have := Finset.mem_range.mp hn
      omega
    exact ⟨h36, Or.inl rfl⟩

/-- Characterization of the winning number in the high-weight branch: it is
always a number covered by some high-weight bettor, and (for a strictly
positive draw) it equals `n` exactly when the draw falls in the cumulative
share interval of `n`, whose width is `n`'s coverage count over the total. -/
theorem spinWinner_high_char (sels : List (String × Sel)) (ws : List (String × ℚ))
    (randoms : List ℚ) (r : ℚ)
    (hhigh : ∃ p ∈ sels, isValidBet (normBet p.2.bet) ∧ 2 ≤ wOf ws p.1)
    (hr1 : r < 1) :
    (∃ n : ℕ, spinWinningNumber sels ws randoms r = (n : ℚ) ∧ 0 < specHighCount sels ws n) ∧
    (0 < r → ∀ n : ℕ,
      (spinWinningNumber sels ws randoms r = (n : ℚ) ↔
        0 < specHighCount sels ws n ∧
        (∑ m ∈ Finset.range n, (specHighCount sels ws m : ℚ)) /
          (∑ m ∈ Finset.range 37, (specHighCount sels ws m : ℚ)) < r ∧
        r ≤ ((∑ m ∈ Finset.range n, (specHighCount sels ws m : ℚ)) +
            (specHighCount sels ws n : ℚ)) /
          (∑ m ∈ Finset.range 37, (specHighCount sels ws m : ℚ)))) := by
  obtain ⟨n₀, hn₀37, hn₀pos⟩ := exists_covered_of_high sels ws hhigh
  have hanyv : anyNumeric sels = true ∨ anyColor sels = true := by
    obtain ⟨p, hp, hv, -⟩ := hhigh
    exact valid_bettor_any sels ⟨p, hp, hv⟩
  have hf₀ : highCount sels ws n₀ ≠ 0 := by
    rw [highCount_eq_spec _ _ _ hn₀37]
    omega
  have hkmem : n₀ ∈ highKeys sels ws :=
    List.mem_filter.mpr ⟨List.mem_range.mpr hn₀37, by simpa using hf₀⟩
  have hkne : highKeys sels ws ≠ [] := List.ne_nil_of_mem hkmem
  have hinkeys : ∀ k ∈ highKeys sels ws, k < 37 ∧ 0 < specHighCount sels ws k := by
    intro k hk
    have h1 := List.mem_range.mp (List.mem_of_mem_filter hk)
    have h2 := List.of_mem_filter hk
    simp only [decide_eq_true_eq] at h2
    rw [highCount_eq_spec _ _ _ h1] at h2
    exact ⟨h1, by omega⟩
  have hTpos : 0 < ∑ m ∈ Finset.range 37, (specHighCount sels ws m : ℚ) := by
    have h1 : (specHighCount sels ws n₀ : ℚ) ≤
        ∑ m ∈ Finset.range 37, (specHighCount sels ws m : ℚ) :=
      Finset.single_le_sum (f := fun m => (specHighCount sels ws m : ℚ))
        (fun m _ => by positivity) (Finset.mem_range.mpr hn₀37)
    have h2 : (0 : ℚ) < (specHighCount sels ws n₀ : ℚ) := by exact_mod_cast hn₀pos
    linarith
  have htotcast : ((((highKeys sels ws).map (fun n => highCount sels ws n)).sum : ℕ) : ℚ) =
      ∑ m ∈ Finset.range 37, (specHighCount sels ws m : ℚ) := by
    rw [show ((highKeys sels ws).map (fun n => highCount sels ws n)).sum =
      ((keysOf (highCount sels ws) 37).map (highCount sels ws)).sum from rfl]
    rw [keysOf_total]
    push_cast
    exact Finset.sum_congr rfl (fun m hm => by
      rw [highCount_eq_spec _ _ _ (Finset.mem_range.mp hm)])
  have htpos : (0 : ℚ) <
      ((((highKeys sels ws).map (fun n => highCount sels ws n)).sum : ℕ) : ℚ) := by
    rw [htotcast]
    exact hTpos
  have hpairs : ((highKeys sels ws).map (fun n => (n, (highCount sels ws n : ℚ)))) =
      pairsOf (highCount sels ws) 37 := rfl
  constructor
  · unfold spinWinningNumber
    rw [if_pos hanyv, if_pos hkne]
    cases hcd : cdfLoop
        ((((highKeys sels ws).map (fun n => highCount sels ws n)).sum : ℕ) : ℚ) r
        ((highKeys sels ws).map (fun n => (n, (highCount sels ws n : ℚ)))) 0 with
    | some k =>
        have hmem := cdfLoop_mem _ _ _ _ _ hcd
        simp only [List.map_map] at hmem
        have hk : k ∈ highKeys sels ws := by simpa using hmem
        exact ⟨k, rfl, (hinkeys k hk).2⟩
    | none =>
        refine ⟨(highKeys sels ws).headD 0, rfl, ?_⟩
        exact (hinkeys _ (headD_mem _ 0 hkne)).2
  · intro hr0' n
    unfold spinWinningNumber
    rw [if_pos hanyv, if_pos hkne]
    cases hcd : cdfLoop
        ((((highKeys sels ws).map (fun n => highCount sels ws n)).sum : ℕ) : ℚ) r
        ((highKeys sels ws).map (fun n => (n, (highCount sels ws n : ℚ)))) 0 with
    | none =>
        exfalso
        have hsome := cdfLoop_isSome_of
          ((((highKeys sels ws).map (fun n => highCount sels ws n)).sum : ℕ) : ℚ) r
          ((highKeys sels ws).map (fun n => (n, (highCount sels ws n : ℚ))))
          (fun h => hkne (List.map_eq_nil_iff.mp h))
          (by
            rw [hpairs, psum_pairsOf]
            rw [show (∑ m ∈ Finset.range 37, ((highCount sels ws m : ℕ) : ℚ)) =
              ∑ m ∈ Finset.range 37, (specHighCount sels ws m : ℚ) from
              Finset.sum_congr rfl (fun m hm => by
                rw [highCount_eq_spec _ _ _ (Finset.mem_range.mp hm)])]
            rw [htotcast, div_self (ne_of_gt hTpos)]
            linarith)
        rw [hcd] at hsome
        simp at hsome
    | some k =>
        have hchar := cdfLoop_pairsOf_iff (highCount sels ws)
          ((((highKeys sels ws).map (fun n => highCount sels ws n)).sum : ℕ) : ℚ) r
          htpos hr0' 37
        rw [hpairs] at hcd
        have hkk := (hchar k).mp hcd
        have hsum_eq : ∀ j : ℕ, j ≤ 37 →
            (∑ m ∈ Finset.range j, ((highCount sels ws m : ℕ) : ℚ)) =
            ∑ m ∈ Finset.range j, (specHighCount sels ws m : ℚ) := by
          intro j hj
          refine Finset.sum_congr rfl (fun m hm => ?_)
          have := Finset.mem_range.mp hm
          rw [highCount_eq_spec _ _ _ (by omega)]
        have hk37 : k < 37 := hkk.1
        have hkne0 : highCount sels ws k ≠ 0 := hkk.2.1
        constructor
        · intro hwin
          have hwin' : (k : ℚ) = (n : ℚ) := by simpa using hwin
          have hkn : k = n := by exact_mod_cast hwin'
          subst hkn
          refine ⟨?_, ?_, ?_⟩
          · rw [← highCount_eq_spec _ _ _ hk37]
            omega
          · have h := hkk.2.2.1
            rw [hsum_eq k (by omega), htotcast] at h
            exact h
          · have h := hkk.2.2.2
            rw [Finset.sum_range_succ, hsum_eq k (by omega),
              highCount_eq_spec _ _ _ hk37, htotcast] at h
            exact h
        · rintro ⟨hpos, hlo, hhi⟩
          have hn37 : n < 37 := by
            by_contra hge
            rw [specHighCount_eq_zero sels ws (by omega)] at hpos
            exact absurd hpos (by omega)
          have hcd' : cdfLoop
              ((((highKeys sels ws).map (fun n => highCount sels ws n)).sum : ℕ) : ℚ) r
              (pairsOf (highCount sels ws) 37) 0 = some n := by
            refine (hchar n).mpr ⟨hn37, ?_, ?_, ?_⟩
            · rw [highCount_eq_spec _ _ _ hn37]
              omega
            · rw [hsum_eq n (by omega), htotcast]
              exact hlo
            · rw [Finset.sum_range_succ, hsum_eq n (by omega),
                highCount_eq_spec _ _ _ hn37, htotcast]
              exact hhi
          rw [hcd] at hcd'
          have : k = n := by simpa using hcd'
          rw [this]

end Roulette
namespace Roulette

/-- C1: for a spin committed with at least one high-weight (weight ≥ 2)
bettor, the winning number is always a number covered by some high-weight
bettor, and for every value of the uniform draw in `(0,1)` it equals `n`
exactly when the draw falls inside `n`'s cumulative interval of coverage
counts — an interval of width `count n / total`, so the selection
probability of each covered number is proportional to its count of distinct
high-weight coverers, and uncovered numbers are never selected. -/
theorem spec_C1 (s : SState) (sid : String) (randoms : List ℚ) (r : ℚ)
    (hd : s.dealerSocket = some sid) (hsp : s.spinning = false)
    (hhigh : ∃ p ∈ s.selections,
      isValidBet (normBet p.2.bet) ∧ 2 ≤ wOf s.weightBySocket p.1)
    (hr0 : 0 ≤ r) (hr1 : r < 1) :
    ∃ res : SpinResult, (stepSpin sid randoms r s).lastSpinResult = some res ∧
      (∃ n : ℕ, res.winningNumber = (n : ℚ) ∧
        0 < specHighCount s.selections s.weightBySocket n) ∧
      (0 < r → ∀ n : ℕ,
        (res.winningNumber = (n : ℚ) ↔
          0 < specHighCount s.selections s.weightBySocket n ∧
          (∑ m ∈ Finset.range n, (specHighCount s.selections s.weightBySocket m : ℚ)) /
            (∑ m ∈ Finset.range 37, (specHighCount s.selections s.weightBySocket m : ℚ)) < r ∧
          r ≤ ((∑ m ∈ Finset.range n, (specHighCount s.selections s.weightBySocket m : ℚ)) +
              (specHighCount s.selections s.weightBySocket n : ℚ)) /
            (∑ m ∈ Finset.range 37, (specHighCount s.selections s.weightBySocket m : ℚ)))) := by
  unfold stepSpin
  rw [if_pos hd, if_neg (by simp [hsp])]
  obtain ⟨hex, hiff⟩ := spinWinner_high_char s.selections s.weightBySocket randoms r hhigh hr1
  exact ⟨_, rfl, hex, hiff⟩

/-- Witness for C1 at the spec's own example: Alice bets 5 with weight 3
(set by the dealer), so she is the only high-weight bettor. -/
theorem spec_C1_witness :
    ∃ res : SpinResult,
      (stepSpin "s1" [1/2] (1/2)
        (runOps cfgA [.join "s1" "111111", .openBets "s1", .join "s2" "222222",
          .select "s2" (.num 5), .setWeight "s1" "s2" (some 3)])).lastSpinResult = some res ∧
      (∃ n : ℕ, res.winningNumber = (n : ℚ) ∧
        0 < specHighCount
          (runOps cfgA [.join "s1" "111111", .openBets "s1", .join "s2" "222222",
            .select "s2" (.num 5), .setWeight "s1" "s2" (some 3)]).selections
          (runOps cfgA [.join "s1" "111111", .openBets "s1", .join "s2" "222222",
            .select "s2" (.num 5), .setWeight "s1" "s2" (some 3)]).weightBySocket n) ∧
      (0 < (1:ℚ)/2 → ∀ n : ℕ,
        (res.winningNumber = (n : ℚ) ↔
          0 < specHighCount
            (runOps cfgA [.join "s1" "111111", .openBets "s1", .join "s2" "222222",
              .select "s2" (.num 5), .setWeight "s1" "s2" (some 3)]).selections
            (runOps cfgA [.join "s1" "111111", .openBets "s1", .join "s2" "222222",
              .select "s2" (.num 5), .setWeight "s1" "s2" (some 3)]).weightBySocket n ∧
          (∑ m ∈ Finset.range n, (specHighCount
            (runOps cfgA [.join "s1" "111111", .openBets "s1", .join "s2" "222222",
              .select "s2" (.num 5), .setWeight "s1" "s2" (some 3)]).selections
            (runOps cfgA [.join "s1" "111111", .openBets "s1", .join "s2" "222222",
              .select "s2" (.num 5), .setWeight "s1" "s2" (some 3)]).weightBySocket m : ℚ)) /
            (∑ m ∈ Finset.range 37, (specHighCount
              (runOps cfgA [.join "s1" "111111", .openBets "s1", .join "s2" "222222",
                .select "s2" (.num 5), .setWeight "s1" "s2" (some 3)]).selections
              (runOps cfgA [.join "s1" "111111", .openBets "s1", .join "s2" "222222",
                .select "s2" (.num 5), .setWeight "s1" "s2" (some 3)]).weightBySocket m : ℚ)) <
            (1:ℚ)/2 ∧
          (1:ℚ)/2 ≤ ((∑ m ∈ Finset.range n, (specHighCount
              (runOps cfgA [.join "s1" "111111", .openBets "s1", .join "s2" "222222",
                .select "s2" (.num 5), .setWeight "s1" "s2" (some 3)]).selections
              (runOps cfgA [.join "s1" "111111", .openBets "s1", .join "s2" "222222",
                .select "s2" (.num 5), .setWeight "s1" "s2" (some 3)]).weightBySocket m : ℚ)) +
              (specHighCount
                (runOps cfgA [.join "s1" "111111", .openBets "s1", .join "s2" "222222",
                  .select "s2" (.num 5), .setWeight "s1" "s2" (some 3)]).selections
                (runOps cfgA [.join "s1" "111111", .openBets "s1", .join "s2" "222222",
                  .select "s2" (.num 5), .setWeight "s1" "s2" (some 3)]).weightBySocket n : ℚ)) /
            (∑ m ∈ Finset.range 37, (specHighCount
              (runOps cfgA [.join "s1" "111111", .openBets "s1", .join "s2" "222222",
                .select "s2" (.num 5), .setWeight "s1" "s2" (some 3)]).selections
              (runOps cfgA [.join "s1" "111111", .openBets "s1", .join "s2" "222222",
                .select "s2" (.num 5), .setWeight "s1" "s2" (some 3)]).weightBySocket m : ℚ)))) :=
  spec_C1 (runOps cfgA [.join "s1" "111111", .openBets "s1", .join "s2" "222222",
      .select "s2" (.num 5), .setWeight "s1" "s2" (some 3)]) "s1" [1/2] (1/2)
    (by decide) (by decide)
    ⟨("s2", ⟨some "Alice", .num 5⟩), by decide, by decide, by decide⟩
    (by norm_num) (by norm_num)

end Roulette
namespace Roulette

/-! ### Claim C7: the composed leaderboard view -/

/-- The code-point comparison is total. -/
theorem natListLe_total : ∀ x y, natListLe x y = true ∨ natListLe y x = true := by
  intro x
  induction x with
  | nil => intro y; left; cases y <;> rfl
  | cons a as ih =>
      intro y
      cases y with
      | nil => right; rfl
      | cons b bs =>
          simp only [natListLe]
          rcases Nat.lt_trichotomy a b with h | h | h
          · left; rw [if_pos h]
          · subst h
            rcases ih bs with h2 | h2
            · left; rw [if_neg (lt_irrefl a), if_neg (lt_irrefl a)]; exact h2
            · right; rw [if_neg (lt_irrefl a), if_neg (lt_irrefl a)]; exact h2
          · right; rw [if_pos h]

/-- The code-point comparison is transitive. -/
theorem natListLe_trans :
    ∀ x y z, natListLe x y = true → natListLe y z = true → natListLe x z = true := by
  intro x
  induction x with
  | nil => intro y z _ _; cases z <;> simp [natListLe]
  | cons a as ih =>
      intro y z hxy hyz
      cases y with
      | nil => simp [natListLe] at hxy
      | cons b bs =>
          cases z with
          | nil => simp [natListLe] at hyz
          | cons c cs =>
              simp only [natListLe] at hxy hyz ⊢
              by_cases hab : a < b
              · have hbc : ¬ c < b := by
                  intro hcb
                  rw [if_neg (by omega), if_pos hcb] at hyz
                  exact Bool.noConfusion hyz
                by_cases hac : a < c
                · rw [if_pos hac]
                · omega
              · by_cases hba : b < a
                · rw [if_neg hab, if_pos hba] at hxy; exact Bool.noConfusion hxy
                · have hab2 : a = b := by omega
                  subst hab2
                  rw [if_neg hab, if_neg hba] at hxy
                  by_cases hbc : a < c
                  · rw [if_pos hbc]
                  · by_cases hcb : c < a
                    · rw [if_neg hbc, if_pos hcb] at hyz; exact Bool.noConfusion hyz
                    · rw [if_neg hbc, if_neg hcb] at hyz ⊢
                      exact ih bs cs hxy hyz

/-- A successful association-list lookup is a member. -/
theorem lookup_mem {α : Type} (l : List (String × α)) (k : String) (v : α)
    (h : l.lookup k = some v) : (k, v) ∈ l := by
  induction l with
  | nil => simp [List.lookup] at h
  | cons p t ih =>
      rw [lookup_cons] at h
      by_cases hp : k = p.1
      · rw [if_pos hp] at h
        injection h with h2
        subst h2
        rw [hp]
        exact List.mem_cons_self p t
      · rw [if_neg hp] at h
        exact List.mem_cons_of_mem p (ih h)

/-- Pseudo-keys determine the code they were built from. -/
theorem uKey_inj {c1 c2 : String} (h : "u:" ++ c1 = "u:" ++ c2) : c1 = c2 := by
  apply String.ext
  have hd := congrArg String.data h
  rw [String.data_append, String.data_append] at hd
  exact List.append_cancel_left hd

/-- Unpacking the connected-branch truthiness test of the leaderboard. -/
theorem regLiveSid_some {s : SState} {st : UStatus} {sid : String}
    (h : regLiveSid s st = some sid) :
    st.connected = true ∧ st.socketId = some sid ∧ sid ≠ "" ∧
      ∃ info, s.connectedSockets.lookup sid = some info := by
  simp only [regLiveSid] at h
  split at h
  · rename_i sid2 hso
    split at h
    · rename_i hc
      injection h with h2
      subst h2
      exact ⟨hc.1, hso, hc.2.1, Option.isSome_iff_exists.mp hc.2.2⟩
    · exact absurd h (by simp)
  · exact absurd h (by simp)

/-- Folding keyed assignments whose keys are fresh for the accumulator and
pairwise distinct appends the mapped entries, in order. -/
theorem foldl_jsObjSet_fresh {I A : Type} (g : I → String × A) :
    ∀ (l : List I) (acc : List (String × A)),
      (∀ c ∈ l, ∀ p ∈ acc, p.1 ≠ (g c).1) →
      (l.map (fun c => (g c).1)).Nodup →
      l.foldl (fun ord c => jsObjSet ord (g c).1 (g c).2) acc = acc ++ l.map g := by
  intro l
  induction l with
  | nil => intro acc _ _; simp
  | cons c t ih =>
      intro acc hfresh hnd
      simp only [List.foldl_cons, List.map_cons]
      rw [jsObjSet_of_fresh _ _ _ (fun p hp => hfresh c (List.mem_cons_self c t) p hp)]
      rw [List.map_cons] at hnd
      have hnd2 := List.nodup_cons.mp hnd
      have hhead : ∀ c2 ∈ t, (g c).1 ≠ (g c2).1 := by
        intro c2 hc2 heq
        exact hnd2.1 (heq ▸ List.mem_map_of_mem (fun x => (g x).1) hc2)
      have hfr2 : ∀ c2 ∈ t, ∀ p ∈ acc ++ [((g c).1, (g c).2)], p.1 ≠ (g c2).1 := by
        intro c2 hc2 p hp
        rcases List.mem_append.mp hp with hpa | hpb
        · exact hfresh c2 (List.mem_cons_of_mem c hc2) p hpa
        · have hpc : p = ((g c).1, (g c).2) := by simpa using hpb
          rw [hpc]
          exact hhead c2 hc2
      rw [ih (acc ++ [((g c).1, (g c).2)]) hfr2 hnd2.2]
      simp

/-- The composed view the specification describes: every registered user
exactly once, in registry load order, then the guest connections sorted
case-insensitively by display name. -/
def specBoard (cfg : Config) (s : SState) : List (String × Row) :=
  cfg.usersOrder.map (regEntry cfg s) ++
    (List.insertionSort (fun a b => nameLe a b = true)
        (s.connectedSockets.filter (fun p => isGuest s p.2))).map (guestEntry s)

/-- C7 (amended): under well-formedness of the reachable state — distinct
registry codes, distinct connected-socket ids, no socket id of the
pseudo-key shape, and every socket recorded as a registered user's active
socket carrying that user's code — the composed leaderboard is exactly the
registry-ordered rows of the registered users (connected ones keyed by
their active socket id with live bet and weight defaulting to 1,
disconnected ones keyed by the stable pseudo-key with bet null, weight
null, connected false, the name always the registry name), followed by the
guest connections stably sorted case-insensitively by display name, each
shown connected with live bet and weight; all keys on the board are
distinct, so every registered user appears exactly once and before every
guest row. -/
theorem spec_C7_amended (cfg : Config) (s : SState)
    (h1 : cfg.usersOrder.Nodup)
    (h2 : (s.connectedSockets.map Prod.fst).Nodup)
    (h3 : ∀ p ∈ s.connectedSockets, ∀ c ∈ cfg.usersOrder, p.1 ≠ "u:" ++ c)
    (h4 : ∀ c ∈ cfg.usersOrder, ∀ p ∈ s.connectedSockets,
        regLiveSid s ((s.usersStatus.lookup c).getD ⟨false, none⟩) = some p.1 →
        p.2.code = some c) :
    emitLeaderboard cfg s = specBoard cfg s ∧
    (List.insertionSort (fun a b => nameLe a b = true)
        (s.connectedSockets.filter (fun p => isGuest s p.2))).Perm
      (s.connectedSockets.filter (fun p => isGuest s p.2)) ∧
    (List.insertionSort (fun a b => nameLe a b = true)
        (s.connectedSockets.filter (fun p => isGuest s p.2))).Pairwise
      (fun a b => nameLe a b = true) ∧
    ((specBoard cfg s).map Prod.fst).Nodup := by
  haveI htot : IsTotal (String × Conn) (fun a b => nameLe a b = true) :=
    ⟨fun a b => by simp only [nameLe]; exact natListLe_total _ _⟩
  haveI htrans : IsTrans (String × Conn) (fun a b => nameLe a b = true) :=
    ⟨fun a b c hab hbc => by
      simp only [nameLe] at hab hbc ⊢
      exact natListLe_trans _ _ _ hab hbc⟩
  have hregkeys : ∀ c1 ∈ cfg.usersOrder, ∀ c2 ∈ cfg.usersOrder,
      (regEntry cfg s c1).1 = (regEntry cfg s c2).1 → c1 = c2 := by
    intro c1 hc1 c2 hc2 heq
    rcases hm1 : regLiveSid s ((s.usersStatus.lookup c1).getD ⟨false, none⟩) with _ | sid1 <;>
      rcases hm2 : regLiveSid s ((s.usersStatus.lookup c2).getD ⟨false, none⟩) with _ | sid2 <;>
      simp only [regEntry, hm1, hm2] at heq
    · exact uKey_inj heq
    · obtain ⟨_, _, _, info2, hl2⟩ := regLiveSid_some hm2
      exact absurd heq.symm (h3 (sid2, info2) (lookup_mem _ _ _ hl2) c1 hc1)
    · obtain ⟨_, _, _, info1, hl1⟩ := regLiveSid_some hm1
      exact absurd heq (h3 (sid1, info1) (lookup_mem _ _ _ hl1) c2 hc2)
    · obtain ⟨_, _, _, info1, hl1⟩ := regLiveSid_some hm1
      obtain ⟨_, _, _, info2, hl2⟩ := regLiveSid_some hm2
      have hcode1 := h4 c1 hc1 (sid1, info1) (lookup_mem _ _ _ hl1) hm1
      have hcode2 := h4 c2 hc2 (sid2, info2) (lookup_mem _ _ _ hl2) hm2
      rw [heq, hl2] at hl1
      injection hl1 with hinfo
      rw [hinfo] at hcode2
      rw [hcode1] at hcode2
      exact Option.some.inj hcode2
  have hregnd : (cfg.usersOrder.map (fun c => (regEntry cfg s c).1)).Nodup :=
    List.Nodup.map_on hregkeys h1
  have hregfold : cfg.usersOrder.foldl
      (fun ord code => jsObjSet ord (regEntry cfg s code).1 (regEntry cfg s code).2) [] =
      cfg.usersOrder.map (regEntry cfg s) := by
    have h0 := foldl_jsObjSet_fresh (regEntry cfg s) cfg.usersOrder []
      (by intro c _ p hp; simp at hp) hregnd
    simpa using h0
  have hkeyfun : (fun p : String × Conn => (guestEntry s p).1) = Prod.fst := rfl
  have hfiltnd : ((s.connectedSockets.filter (fun p => isGuest s p.2)).map Prod.fst).Nodup :=
    ((List.filter_sublist s.connectedSockets).map Prod.fst).nodup h2
  have hsortnd : ((List.insertionSort (fun a b => nameLe a b = true)
      (s.connectedSockets.filter (fun p => isGuest s p.2))).map
        (fun p => (guestEntry s p).1)).Nodup := by
    rw [hkeyfun]
    exact ((List.perm_insertionSort (fun a b => nameLe a b = true)
      (s.connectedSockets.filter (fun p => isGuest s p.2))).map Prod.fst).symm.nodup hfiltnd
  have hguestfresh : ∀ gp ∈ List.insertionSort (fun a b => nameLe a b = true)
        (s.connectedSockets.filter (fun p => isGuest s p.2)),
      ∀ q ∈ cfg.usersOrder.map (regEntry cfg s), q.1 ≠ (guestEntry s gp).1 := by
    intro gp hgp q hq
    have hpf : gp ∈ s.connectedSockets.filter (fun p => isGuest s p.2) :=
      ((List.perm_insertionSort (fun a b => nameLe a b = true)
        (s.connectedSockets.filter (fun p => isGuest s p.2))).mem_iff).mp hgp
    have hpc : gp ∈ s.connectedSockets := (List.mem_filter.mp hpf).1
    have hpg : isGuest s gp.2 = true := (List.mem_filter.mp hpf).2
    obtain ⟨c, hc, hq2⟩ := List.mem_map.mp hq
    rw [show q = regEntry cfg s c from hq2.symm]
    rcases hm : regLiveSid s ((s.usersStatus.lookup c).getD ⟨false, none⟩) with _ | sid <;>
      simp only [regEntry, guestEntry, hm]
    · exact (h3 gp hpc c hc).symm
    · intro hsp
      rw [hsp] at hm
      have hcode := h4 c hc gp hpc hm
      simp only [isGuest, hcode] at hpg
      cases hus : s.usersStatus.lookup c with
      | none => rw [hus] at hm; simp [regLiveSid] at hm
      | some st => rw [hus] at hpg; simp at hpg
  have hguestfold := foldl_jsObjSet_fresh (guestEntry s)
    (List.insertionSort (fun a b => nameLe a b = true)
      (s.connectedSockets.filter (fun p => isGuest s p.2)))
    (cfg.usersOrder.map (regEntry cfg s)) hguestfresh hsortnd
  refine ⟨?_, List.perm_insertionSort _ _, List.sorted_insertionSort _ _, ?_⟩
  · unfold emitLeaderboard specBoard
    rw [hregfold, hguestfold]
  · unfold specBoard
    rw [List.map_append, List.map_map, List.map_map]
    refine List.nodup_append.mpr ⟨?_, ?_, ?_⟩
    · exact hregnd
    · exact hsortnd
    · intro k hk1 hk2
      obtain ⟨c, hc, hck⟩ := List.mem_map.mp hk1
      obtain ⟨gp, hgp, hgpk⟩ := List.mem_map.mp hk2
      exact hguestfresh gp hgp (regEntry cfg s c) (List.mem_map_of_mem (regEntry cfg s) hc)
        (hck.trans hgpk.symm)

/-- C7 witness: the composition law applied to the state reached by one
registered join, with every hypothesis checked concretely. -/
theorem spec_C7_witness :
    cfgA.usersOrder.Nodup ∧
    (((runOps cfgA [.join "s1" "111111"]).connectedSockets.map Prod.fst).Nodup) ∧
    (∀ p ∈ (runOps cfgA [.join "s1" "111111"]).connectedSockets,
      ∀ c ∈ cfgA.usersOrder, p.1 ≠ "u:" ++ c) ∧
    (∀ c ∈ cfgA.usersOrder, ∀ p ∈ (runOps cfgA [.join "s1" "111111"]).connectedSockets,
      regLiveSid (runOps cfgA [.join "s1" "111111"])
          (((runOps cfgA [.join "s1" "111111"]).usersStatus.lookup c).getD ⟨false, none⟩) =
        some p.1 → p.2.code = some c) ∧
    emitLeaderboard cfgA (runOps cfgA [.join "s1" "111111"]) =
      specBoard cfgA (runOps cfgA [.join "s1" "111111"]) :=
  ⟨by decide, by decide, by decide, by decide,
    (spec_C7_amended cfgA (runOps cfgA [.join "s1" "111111"])
      (by decide) (by decide) (by decide) (by decide)).1⟩

/-- A registry of two users, no dealer code, for the leaderboard
counterexample. -/
def cfg7 : Config := ⟨["111111", "222222"], [("111111", "Alice"), ("222222", "Bob")], none⟩

/-- C7 counterexample: one socket joins with Alice's code and then with
Bob's code.  Alice's status still shows connected at that socket, yet the
composed board has a single row and no row at all carries Alice's name, so
the claim that every composed view lists every registered user exactly
once fails. -/
theorem spec_C7_cex :
    (runOps cfg7 [.join "s" "111111", .join "s" "222222"]).usersStatus.lookup "111111" =
        some ⟨true, some "s"⟩ ∧
    ("111111", "Alice") ∈ cfg7.usersByCode ∧
    (emitLeaderboard cfg7 (runOps cfg7 [.join "s" "111111", .join "s" "222222"])).length = 1 ∧
    (∀ q ∈ emitLeaderboard cfg7 (runOps cfg7 [.join "s" "111111", .join "s" "222222"]),
      q.2.name ≠ some "Alice") := by
  decide

end Roulette
